import Mathlib

/-!
Verification of the Sudoku solver/generator (`sudoku_solver.py`) and the maze
generator/search engine (`maze_solver.py`).

A Sudoku board is embedded as a flat list of 81 natural numbers in row-major
order: the Python cell `board[i][j]` is `b.getD (9*i+j) 0`.  All functions are
translated to pure state-passing form; Python's in-place mutation of the board
becomes explicit passing of the updated list.
-/

namespace Sudoku

/-- The Python cell access `board[i][j]` on the row-major flat list. -/
def getCell (b : List Nat) (i j : Nat) : Nat := b.getD (9 * i + j) 0

/-- `SudokuSolver.is_valid` (sudoku_solver.py lines 14-34): scan row `row`,
column `col`, and the 3x3 box at `(row - row % 3, col - col % 3)` for an
occurrence of `num`; true iff none is found. -/
def is_valid (b : List Nat) (row col num : Nat) : Bool :=
  ((List.range 9).all fun x => getCell b row x != num) &&
  ((List.range 9).all fun x => getCell b x col != num) &&
  ((List.range 3).all fun i => (List.range 3).all fun j =>
    getCell b (i + (row - row % 3)) (j + (col - col % 3)) != num)

/-- Row-major scan for the first empty (zero) cell, returning its flat index:
the nested `for i / for j / if board[i][j] == 0` scan of `solve_sudoku`. -/
def findEmpty : List Nat → Option Nat
  | [] => none
  | c :: rest => if c = 0 then some 0 else (findEmpty rest).map (· + 1)

/-- The digit loop `for num in range(1, 10)` of `solve_sudoku`, with the
recursive solver passed in as `slv`: try each digit in order at flat cell `k`
(row `k / 9`, column `k % 9`); on a valid digit whose recursive solve
succeeds, return that solved board; otherwise undo (keep `b`) and continue;
return `(false, b)` when the digits are exhausted. -/
def tryCell (slv : List Nat → Bool × List Nat) (b : List Nat) (k : Nat) :
    List Nat → Bool × List Nat
  | [] => (false, b)
  | num :: rest =>
    if is_valid b (k / 9) (k % 9) num then
      match slv (b.set k num) with
      | (true, b') => (true, b')
      | (false, _) => tryCell slv b k rest
    else tryCell slv b k rest

/-- `SudokuSolver.solve_sudoku` (sudoku_solver.py lines 36-48) with an explicit
fuel bound on the recursion depth.  Each recursive call fills one empty cell,
so the Python recursion depth is bounded by the number of zero cells; any
`fuel` larger than that bound makes the `0` case unreachable. -/
def solveAux : Nat → List Nat → Bool × List Nat
  | 0, b => (false, b)
  | fuel + 1, b =>
    match findEmpty b with
    | none => (true, b)
    | some k => tryCell (solveAux fuel) b k [1, 2, 3, 4, 5, 6, 7, 8, 9]

/-- `SudokuSolver.solve_sudoku` on a 9x9 board: 82 units of fuel strictly
exceed the 81-cell recursion-depth bound, so the fuel never runs out. -/
def solve_sudoku (b : List Nat) : Bool × List Nat := solveAux 82 b

/-- `SudokuSolver.check_solution` (sudoku_solver.py lines 97-110), value level:
every cell is nonzero and, with that cell temporarily cleared to 0, its value
re-validates via `is_valid`. -/
def check_solution (b : List Nat) : Bool :=
  (List.range 81).all fun k =>
    getCell b (k / 9) (k % 9) != 0 &&
    is_valid (b.set k 0) (k / 9) (k % 9) (getCell b (k / 9) (k % 9))

/-- `SudokuSolver._fill_box` (sudoku_solver.py lines 62-69): write the shuffled
digits `nums` into the 3x3 box whose top-left corner is `(row, col)`, cell
`(row+i, col+j)` receiving `nums[i*3+j]`. -/
def fill_box (b : List Nat) (row col : Nat) (nums : List Nat) : List Nat :=
  (List.range 9).foldl
    (fun acc t => acc.set (9 * (row + t / 3) + (col + t % 3)) (nums.getD t 0)) b

/-- `SudokuSolver.generate_complete_board` (sudoku_solver.py lines 50-60).
`random.shuffle` is modelled by the oracle `shuffles`, whose value at `i` is
the shuffled `[1..9]` used for the `i`-th diagonal box (boxes at `(0,0)`,
`(3,3)`, `(6,6)`); the board left behind by `solve_sudoku` is returned whether
or not the solve succeeded, exactly as the Python returns `board`. -/
def generate_complete_board (shuffles : Nat → List Nat) : List Nat :=
  let b0 := List.replicate 81 0
  let b1 := fill_box b0 0 0 (shuffles 0)
  let b2 := fill_box b1 3 3 (shuffles 1)
  let b3 := fill_box b2 6 6 (shuffles 2)
  (solve_sudoku b3).snd

/-- The `difficulty_map` dictionary lookup with default 50
(sudoku_solver.py lines 78-84). -/
def difficulty_map (difficulty : String) : Nat :=
  if difficulty = "easy" then 40
  else if difficulty = "medium" then 50
  else if difficulty = "hard" then 60
  else 50

/-- The cell-removal `while removed < cells_to_remove` loop of
`generate_puzzle` (sudoku_solver.py lines 87-93).  `random.randint(0, 8)`
pairs are modelled by the oracle `picks` (the `Fin 9` components capture
`randint`'s 0..8 range contract); `fuel` bounds the number of loop iterations,
with `none` standing for the loop still running when the fuel is exhausted. -/
def removeCells (picks : Nat → Fin 9 × Fin 9) (target : Nat) :
    Nat → Nat → Nat → List Nat → Option (List Nat)
  | 0, _, removed, b => if target ≤ removed then some b else none
  | fuel + 1, i, removed, b =>
    if target ≤ removed then some b
    else
      let rc := picks i
      let k := 9 * rc.1.val + rc.2.val
      if b.getD k 0 ≠ 0 then removeCells picks target fuel (i + 1) (removed + 1) (b.set k 0)
      else removeCells picks target fuel (i + 1) removed b

/-- `SudokuSolver.generate_puzzle` (sudoku_solver.py lines 71-95): build a
complete board, deep-copy it, and zero out `difficulty_map difficulty` many
distinct cells chosen by the `picks` oracle, returning
`(puzzle_board, complete_board)`. -/
def generate_puzzle (shuffles : Nat → List Nat) (picks : Nat → Fin 9 × Fin 9)
    (fuel : Nat) (difficulty : String) : Option (List Nat × List Nat) :=
  let complete_board := generate_complete_board shuffles
  (removeCells picks (difficulty_map difficulty) fuel 0 0 complete_board).map
    fun puzzle_board => (puzzle_board, complete_board)

/-- The board state right before the `solve_sudoku` call inside
`generate_complete_board`: the three diagonal boxes written onto the empty
board. -/
def seedBoard (shuffles : Nat → List Nat) : List Nat :=
  fill_box (fill_box (fill_box (List.replicate 81 0) 0 0 (shuffles 0)) 3 3 (shuffles 1))
    6 6 (shuffles 2)

/-- A concrete shuffle oracle (each value a legitimate `random.shuffle` output
over `[1..9]`), used to instantiate the generator theorems. -/
def shuffles0 : Nat → List Nat := fun i =>
  if i = 0 then [1, 2, 3, 4, 5, 6, 7, 8, 9]
  else if i = 1 then [4, 5, 6, 7, 8, 9, 1, 2, 3]
  else [7, 8, 9, 1, 2, 3, 4, 5, 6]

/-- A concrete `randint(0,8)` pair oracle sweeping the cells in row-major
order, used to instantiate the generator theorems. -/
def picks0 : Nat → Fin 9 × Fin 9 := fun i =>
  (⟨(i / 9) % 9, Nat.mod_lt _ (by omega)⟩, ⟨i % 9, Nat.mod_lt _ (by omega)⟩)

/-- The complete board produced by `generate_complete_board shuffles0`. -/
def sLit : List Nat :=
  [1, 2, 3, 5, 4, 7, 6, 9, 8, 4, 5, 6, 2, 9, 8, 3, 1, 7, 7, 8, 9, 3, 6, 1, 2, 4, 5,
   2, 3, 8, 4, 5, 6, 9, 7, 1, 6, 1, 4, 7, 8, 9, 5, 3, 2, 5, 9, 7, 1, 2, 3, 8, 6, 4,
   3, 4, 2, 6, 1, 5, 7, 8, 9, 8, 6, 5, 9, 7, 4, 1, 2, 3, 9, 7, 1, 8, 3, 2, 4, 5, 6]

/-- The easy puzzle produced by `generate_puzzle shuffles0 picks0 100 "easy"`:
the first 40 cells of `sLit` punched out. -/
def pLitE : List Nat :=
  [0, 0, 0, 0, 0, 0, 0, 0, 0, 0, 0, 0, 0, 0, 0, 0, 0, 0, 0, 0, 0, 0, 0, 0, 0, 0, 0,
   0, 0, 0, 0, 0, 0, 0, 0, 0, 0, 0, 0, 0, 8, 9, 5, 3, 2, 5, 9, 7, 1, 2, 3, 8, 6, 4,
   3, 4, 2, 6, 1, 5, 7, 8, 9, 8, 6, 5, 9, 7, 4, 1, 2, 3, 9, 7, 1, 8, 3, 2, 4, 5, 6]

/-- Two cells `(r, c)` and `(r', c')` share a Sudoku unit: same row, same
column, or same 3x3 box. -/
def unitMates (r c r' c' : Nat) : Prop :=
  r = r' ∨ c = c' ∨ (r / 3 = r' / 3 ∧ c / 3 = c' / 3)

instance (r c r' c' : Nat) : Decidable (unitMates r c r' c') := by
  unfold unitMates; infer_instance

/-- No two distinct cells of a shared unit hold the same nonzero value. -/
def consistentBoard (b : List Nat) : Prop :=
  ∀ r, r < 9 → ∀ c, c < 9 → ∀ r', r' < 9 → ∀ c', c' < 9 →
    (r, c) ≠ (r', c') → unitMates r c r' c' →
    getCell b r c ≠ 0 → getCell b r c ≠ getCell b r' c'

/-- Executable form of `consistentBoard`. -/
def consistentCheck (b : List Nat) : Bool :=
  (List.range 9).all fun r => (List.range 9).all fun c =>
    (List.range 9).all fun r' => (List.range 9).all fun c' =>
      decide ((r, c) ≠ (r', c') → unitMates r c r' c' →
        getCell b r c ≠ 0 → getCell b r c ≠ getCell b r' c')

instance (b : List Nat) : Decidable (consistentBoard b) :=
  decidable_of_iff (consistentCheck b = true) (by
    simp only [consistentCheck, consistentBoard, List.all_eq_true, List.mem_range,
      decide_eq_true_eq])

/-- Every cell is filled (nonzero). -/
def filledBoard (b : List Nat) : Prop := ∀ k, k < 81 → b.getD k 0 ≠ 0

/-- Every cell value is at most 9. -/
def boundedBoard (b : List Nat) : Prop := ∀ k, k < 81 → b.getD k 0 ≤ 9

instance (b : List Nat) : Decidable (filledBoard b) := by
  unfold filledBoard; infer_instance

instance (b : List Nat) : Decidable (boundedBoard b) := by
  unfold boundedBoard; infer_instance

/-- A valid complete Sudoku solution: 81 cells, all filled with values in
1..9, no duplicate within any row, column, or box. -/
def validBoard (b : List Nat) : Prop :=
  b.length = 81 ∧ filledBoard b ∧ boundedBoard b ∧ consistentBoard b

instance (b : List Nat) : Decidable (validBoard b) := by
  unfold validBoard filledBoard boundedBoard; exact instDecidableAnd

/-- `s` agrees with `b` on every filled cell of `b` (so `s` is a completion of
`b` when `s` is itself complete). -/
def extendsBoard (b s : List Nat) : Prop :=
  ∀ k, k < 81 → b.getD k 0 ≠ 0 → s.getD k 0 = b.getD k 0

/-- Modelled from the spec: "placing `num` at (row,col) introduces a duplicate
of `num` in that row, that column, or the containing 3x3 box", read against
the board after the placement — i.e. some cell of a shared unit other than
`(row, col)` itself already holds `num`.  This is the spec-side reading of
C2, to be compared with the source function `is_valid`. -/
def introducesDuplicate (b : List Nat) (row col num : Nat) : Prop :=
  ∃ r', r' < 9 ∧ ∃ c', c' < 9 ∧ (r', c') ≠ (row, col) ∧
    unitMates row col r' c' ∧ getCell b r' c' = num

/-- `SudokuSolver.check_solution` with the Python mutation made explicit: the
scan from flat cell `k` onward, returning the verdict together with the board
as left behind by the clear/validate/restore cycles (restoring on both the
failure and the success path, and not touching the board on the zero-cell
early return). -/
def check_solution_st (b : List Nat) (k : Nat) : Bool × List Nat :=
  if 81 ≤ k then (true, b)
  else
    let temp := getCell b (k / 9) (k % 9)
    if temp = 0 then (false, b)
    else
      let cleared := b.set k 0
      if ! is_valid cleared (k / 9) (k % 9) temp then (false, cleared.set k temp)
      else check_solution_st (cleared.set k temp) (k + 1)
  termination_by 81 - k
  decreasing_by omega

end Sudoku

namespace Maze

/-- A maze coordinate `(x, y)`, as the Python tuples. -/
abbrev Pos := Int × Int

/-- 4-neighbor (von Neumann) adjacency between two coordinates. -/
def adj (p q : Pos) : Prop :=
  (p.1 - q.1).natAbs + (p.2 - q.2).natAbs = 1

instance (p q : Pos) : Decidable (adj p q) := by
  unfold adj; infer_instance

/-- `0 <= x < N and 0 <= y < N`, the bounds check used throughout
maze_solver.py. -/
def inB (N : Int) (p : Pos) : Prop := 0 ≤ p.1 ∧ p.1 < N ∧ 0 ≤ p.2 ∧ p.2 < N

instance (N : Int) (p : Pos) : Decidable (inB N p) := by
  unfold inB; infer_instance

/-- The mutable per-cell flags of `generate_maze`, gathered into one record:
`openCells` is the set of cells with `is_wall == False`, `visited` the set
with `is_visited == True`.  `outOfFuel` is an artifact of the explicit fuel
bound on the recursion: it is set exactly when the fuel runs out, so a final
state with `outOfFuel = false` is one the unbounded Python recursion also
reaches. -/
structure CarveState where
  openCells : List Pos
  visited : List Pos
  outOfFuel : Bool

/-- The direction loop of `MazeSolver._generate_maze_recursive` (maze_solver.py
lines 255-268): for each `(dx, dy)` in the shuffled direction list, if the
2-step target is in bounds and unvisited, open the midpoint wall and recurse
into the target (`carve'` is the recursive call at the next fuel level). -/
def carveDirs (carve' : Pos → CarveState → CarveState) (N : Int) (x y : Int) :
    List Pos → CarveState → CarveState
  | [], st => st
  | (dx, dy) :: rest, st =>
    let nx := x + dx
    let ny := y + dy
    if 0 ≤ nx ∧ nx < N ∧ 0 ≤ ny ∧ ny < N then
      if (nx, ny) ∈ st.visited then carveDirs carve' N x y rest st
      else
        let st' := { st with
          openCells := List.insert (x + dx / 2, y + dy / 2) st.openCells }
        carveDirs carve' N x y rest (carve' (nx, ny) st')
    else carveDirs carve' N x y rest st

/-- `MazeSolver._generate_maze_recursive` (maze_solver.py lines 246-268) with
an explicit fuel bound on the recursion depth.  `random.shuffle` of the four
step-2 directions is modelled by the oracle `dirs`, indexed by the cell being
carved (each cell is carved at most once). -/
def carve (N : Int) (dirs : Pos → List Pos) : Nat → Pos → CarveState → CarveState
  | 0, _, st => { st with outOfFuel := true }
  | fuel + 1, (x, y), st =>
    let st1 : CarveState :=
      { st with openCells := List.insert (x, y) st.openCells,
                visited := List.insert (x, y) st.visited }
    carveDirs (carve N dirs fuel) N x y (dirs (x, y)) st1

/-- `MazeSolver.generate_maze` (maze_solver.py lines 224-244): reset every
cell to an unvisited wall, carve from (1,1), then force the start (1,1) and
end (N-2, N-2) cells open. -/
def generate_maze (N : Int) (dirs : Pos → List Pos) (fuel : Nat) : CarveState :=
  let st := carve N dirs fuel (1, 1) ⟨[], [], false⟩
  { st with openCells :=
      List.insert (N - 2, N - 2) (List.insert (1, 1) st.openCells) }

/-- One step inside the open region: `q` is a non-wall cell adjacent to the
current cell.  `Relation.ReflTransGen (stepRel cells)` is reachability in the
4-neighbor graph of open cells. -/
def stepRel (cells : List Pos) (p q : Pos) : Prop := adj p q ∧ q ∈ cells

/-- A (simple) cycle of the 4-neighbor graph on `cells`: at least three
pairwise distinct member cells, consecutively adjacent, whose last cell is
adjacent back to the first. -/
def isCycle (cells : List Pos) (l : List Pos) : Prop :=
  3 ≤ l.length ∧ l.Nodup ∧ (∀ p ∈ l, p ∈ cells) ∧ l.Chain' adj ∧
  ∀ a ∈ l.getLast?, ∀ b ∈ l.head?, adj a b

/-- Outcome of a search run: an artifact-free translation of the Python
control flow (`found` = path handed to `reconstruct_path`, `notFound` = the
frontier ran dry), plus the fuel-exhaustion marker of the embedding. -/
inductive SearchResult where
  | found : List Pos → SearchResult
  | notFound : SearchResult
  | outOfFuel : SearchResult
deriving DecidableEq

/-- `MazeSolver.reconstruct_path` (maze_solver.py lines 446-455): follow the
parent map from the goal until a cell with no parent entry, collecting the
cells; the Python append-then-reverse is realised by cons-accumulation. -/
def reconstruct_path (parent : List (Pos × Pos)) : Nat → Pos → List Pos → List Pos
  | 0, _, acc => acc
  | fuel + 1, current, acc =>
    match parent.lookup current with
    | some prev => reconstruct_path parent fuel prev (current :: acc)
    | none => acc

/-- The neighbor loop shared by `solve_dfs` (maze_solver.py lines 378-387):
for each direction (right, down, left, up), push the in-bounds, non-wall,
unvisited neighbor and record its parent if absent. -/
def pushNeighbors (N : Int) (wall : Pos → Bool) (visited : List Pos) (current : Pos) :
    List Pos → List Pos → List (Pos × Pos) → List Pos × List (Pos × Pos)
  | [], stack, parent => (stack, parent)
  | (dx, dy) :: ds, stack, parent =>
    let n : Pos := (current.1 + dx, current.2 + dy)
    if 0 ≤ n.1 ∧ n.1 < N ∧ 0 ≤ n.2 ∧ n.2 < N ∧ wall n = false ∧ n ∉ visited then
      let parent' := if (parent.lookup n).isSome then parent else (n, current) :: parent
      pushNeighbors N wall visited current ds (n :: stack) parent'
    else pushNeighbors N wall visited current ds stack parent

/-- The `while stack` loop of `MazeSolver.solve_dfs` (maze_solver.py lines
344-390), visualization stripped: pop, lazily deduplicate against the visited
set, mark visited, stop on the goal (handing the parent map to
`reconstruct_path` with fuel exceeding the parent chain length), else push
the eligible neighbors in the fixed order right, down, left, up. -/
def dfsLoop (N : Int) (wall : Pos → Bool) (goal : Pos) :
    Nat → List Pos → List Pos → List (Pos × Pos) → SearchResult
  | 0, _, _, _ => .outOfFuel
  | _ + 1, [], _, _ => .notFound
  | fuel + 1, current :: stack, visited, parent =>
    if current ∈ visited then dfsLoop N wall goal fuel stack visited parent
    else
      let visited' := current :: visited
      if current = goal then
        .found (reconstruct_path parent (parent.length + 1) current [])
      else
        let sp := pushNeighbors N wall visited' current
          [(1, 0), (0, 1), (-1, 0), (0, -1)] stack parent
        dfsLoop N wall goal fuel sp.1 visited' sp.2

/-- `MazeSolver.solve_dfs`: explicit stack seeded with the start cell, empty
visited set and parent map. -/
def solve_dfs (N : Int) (wall : Pos → Bool) (start goal : Pos) (fuel : Nat) :
    SearchResult :=
  dfsLoop N wall goal fuel [start] [] []

/-- The neighbor loop of `solve_bfs` (maze_solver.py lines 432-441): enqueue
each in-bounds, non-wall, unvisited neighbor, marking it visited and
recording its parent at enqueue time. -/
def enqNeighbors (N : Int) (wall : Pos → Bool) (current : Pos) :
    List Pos → List Pos → List Pos → List (Pos × Pos) →
    List Pos × List Pos × List (Pos × Pos)
  | [], queue, visited, parent => (queue, visited, parent)
  | (dx, dy) :: ds, queue, visited, parent =>
    let n : Pos := (current.1 + dx, current.2 + dy)
    if 0 ≤ n.1 ∧ n.1 < N ∧ 0 ≤ n.2 ∧ n.2 < N ∧ wall n = false ∧ n ∉ visited then
      enqNeighbors N wall current ds (queue ++ [n]) (n :: visited) ((n, current) :: parent)
    else enqNeighbors N wall current ds queue visited parent

/-- The `while queue` loop of `MazeSolver.solve_bfs` (maze_solver.py lines
392-444), visualization stripped: dequeue from the front, stop on the goal,
else enqueue the eligible neighbors (visited marked at enqueue time). -/
def bfsLoop (N : Int) (wall : Pos → Bool) (goal : Pos) :
    Nat → List Pos → List Pos → List (Pos × Pos) → SearchResult
  | 0, _, _, _ => .outOfFuel
  | _ + 1, [], _, _ => .notFound
  | fuel + 1, current :: queue, visited, parent =>
    if current = goal then
      .found (reconstruct_path parent (parent.length + 1) current [])
    else
      let qvp := enqNeighbors N wall current
        [(1, 0), (0, 1), (-1, 0), (0, -1)] queue visited parent
      bfsLoop N wall goal fuel qvp.1 qvp.2.1 qvp.2.2

/-- `MazeSolver.solve_bfs`: FIFO queue seeded with the start cell, which is
marked visited from the outset. -/
def solve_bfs (N : Int) (wall : Pos → Bool) (start goal : Pos) (fuel : Nat) :
    SearchResult :=
  bfsLoop N wall goal fuel [start] [start] []

/-- Reachability from `start` within `n` steps through in-bounds, non-wall
cells (the cells entered along the way are open; `start` itself is taken as
given, exactly as the searches never test the start cell). -/
inductive ReachIn (N : Int) (wall : Pos → Bool) (start : Pos) : Nat → Pos → Prop
  | base (n : Nat) : ReachIn N wall start n start
  | step {n : Nat} {p q : Pos} : ReachIn N wall start n p → adj p q → inB N q →
      wall q = false → ReachIn N wall start (n + 1) q

/-- Well-formed parent map as built by both searches: newest entries in
front, each key recorded at most once, each parent either the start cell or a
key recorded strictly earlier. -/
def ranked (start : Pos) : List (Pos × Pos) → Prop
  | [] => True
  | (n, c) :: rest =>
    (c = start ∨ c ∈ rest.map Prod.fst) ∧ n ∉ rest.map Prod.fst ∧ ranked start rest

/-- The fixed 5x5 demonstration grid of the spec's test scenario: walls at
(1,1), (1,2), (2,1) and (3,3). -/
def demoWall : Pos → Bool := fun p =>
  ([(1, 1), (1, 2), (2, 1), (3, 3)] : List Pos).contains p

/-- An odd-odd cell of the maze grid: the cells the recursive carver visits. -/
def oddCell (p : Pos) : Prop := p.1 % 2 = 1 ∧ p.2 % 2 = 1

instance (p : Pos) : Decidable (oddCell p) := by
  unfold oddCell; infer_instance

/-- The lower/left odd endpoint of a wall midpoint cell. -/
def endA (m : Pos) : Pos := if m.1 % 2 = 0 then (m.1 - 1, m.2) else (m.1, m.2 - 1)

/-- The upper/right odd endpoint of a wall midpoint cell. -/
def endB (m : Pos) : Pos := if m.1 % 2 = 0 then (m.1 + 1, m.2) else (m.1, m.2 + 1)

/-- The four step-2 carving directions of `_generate_maze_recursive`. -/
def dirs2 : List Pos := [(2, 0), (0, 2), (-2, 0), (0, -2)]

/-- Structural invariant of the carve state, rooted at (1,1).  `P` lists the
cells exceptionally allowed as an unvisited endpoint of an open midpoint (the
cell a pending recursive call is about to open); it is `[p]` right before
carving into `p` and `[]` at every clean state.  The final conjunct is the
spanning-tree certificate: a parent map and a depth so that every open cell
other than the root has an adjacent open parent one level up, and every
4-adjacency between open cells is a parent link. -/
def stInv (N : Int) (P : List Pos) (st : CarveState) : Prop :=
  ((1, 1) ∈ st.visited ∨ (st.openCells = [] ∧ st.visited = [])) ∧
  (∀ p ∈ st.visited, oddCell p ∧ inB N p ∧ p ∈ st.openCells) ∧
  (∀ p ∈ st.openCells, inB N p) ∧
  (∀ p ∈ st.openCells, oddCell p → p ∈ st.visited) ∧
  (∀ m ∈ st.openCells, ¬ oddCell m →
    ((m.1 % 2 = 0 ∧ m.2 % 2 = 1) ∨ (m.1 % 2 = 1 ∧ m.2 % 2 = 0)) ∧
    (endA m ∈ st.visited ∨ endA m ∈ P) ∧ (endB m ∈ st.visited ∨ endB m ∈ P)) ∧
  ∃ (pm : Pos → Option Pos) (dp : Pos → Nat),
    pm (1, 1) = none ∧ dp (1, 1) = 0 ∧
    (∀ p ∈ st.openCells, p ≠ (1, 1) →
      ∃ q, pm p = some q ∧ q ∈ st.openCells ∧ adj p q ∧ dp p = dp q + 1) ∧
    (∀ p ∈ st.openCells, ∀ q ∈ st.openCells, adj p q → pm p = some q ∨ pm q = some p)

/-- Precondition of `carve p st`: `p` is an unvisited odd in-bounds cell, the
state satisfies the invariant with `p` as the only pending midpoint endpoint,
`p` has at most one open neighbor, and either this is the initial call on the
empty grid or that neighbor is the freshly opened midpoint wall. -/
def carvePre (N : Int) (p : Pos) (st : CarveState) : Prop :=
  oddCell p ∧ inB N p ∧ p ∉ st.visited ∧ stInv N [p] st ∧
  (∀ m ∈ st.openCells, ∀ m' ∈ st.openCells, adj p m → adj p m' → m = m') ∧
  ((p = (1, 1) ∧ st.openCells = []) ∨
    (∃ m₀ ∈ st.openCells, adj p m₀ ∧ (1, 1) ∈ st.visited))

/-- Postcondition of a completed (fuel-sufficient) `carve p st`: the clean
invariant holds again, the open and visited sets only grew, `p` is visited,
and every cell visited by this call has all its in-bounds step-2 neighbors
visited. -/
def carvePost (N : Int) (p : Pos) (st st' : CarveState) : Prop :=
  stInv N [] st' ∧
  (∀ q ∈ st.openCells, q ∈ st'.openCells) ∧
  (∀ q ∈ st.visited, q ∈ st'.visited) ∧
  p ∈ st'.visited ∧
  (∀ v ∈ st'.visited, v ∉ st.visited →
    ∀ d ∈ dirs2, inB N (v.1 + d.1, v.2 + d.2) → (v.1 + d.1, v.2 + d.2) ∈ st'.visited)

/-- The chain collected by `reconstruct_path` from `c`: empty when `c` has no
parent entry, otherwise the chain of `c`'s ancestor-most-first ancestry ending
at `c`. -/
inductive ParentPath (parent : List (Pos × Pos)) : Pos → List Pos → Prop
  | stop {c : Pos} : parent.lookup c = none → ParentPath parent c []
  | step {c prev : Pos} {l : List Pos} : parent.lookup c = some prev →
      ParentPath parent prev l → ParentPath parent c (l ++ [c])

/-- The properties C7 states of a reconstructed path: nonempty, chained by
4-adjacency from the start cell (so its head is the first step after start),
ending at the goal, avoiding the start cell, through in-bounds non-wall
cells. -/
def pathProps (N : Int) (wall : Pos → Bool) (start goal : Pos) (p : List Pos) : Prop :=
  p ≠ [] ∧ p.getLast? = some goal ∧ start ∉ p ∧ List.Chain adj start p ∧
  ∀ q ∈ p, inB N q ∧ wall q = false

/-- The identity direction oracle: every shuffle returns the directions in
their original order (one possible outcome of `random.shuffle`). -/
def dirs0 : Pos → List Pos := fun _ => dirs2

end Maze


namespace Sudoku

lemma getD_set_self {l : List Nat} {k v : Nat} (h : k < l.length) :
    (l.set k v).getD k 0 = v := by
  rw [List.getD_eq_getElem?_getD, List.getElem?_set_self (by simpa using h)]
  rfl

lemma getD_set_ne {l : List Nat} {k m v : Nat} (h : k ≠ m) :
    (l.set k v).getD m 0 = l.getD m 0 := by
  rw [List.getD_eq_getElem?_getD, List.getElem?_set_ne h, ← List.getD_eq_getElem?_getD]

lemma set_getD_self {l : List Nat} {k : Nat} (h : k < l.length) :
    l.set k (l.getD k 0) = l := by
  apply List.ext_getElem?
  intro n
  by_cases hn : k = n
  · subst hn
    rw [List.getElem?_set_self (by simpa using h), List.getD_eq_getElem?_getD,
      List.getElem?_eq_getElem h]
    rfl
  · rw [List.getElem?_set_ne hn]

lemma set_restore {l : List Nat} {k : Nat} :
    (l.set k 0).set k (l.getD k 0) = l := by
  by_cases h : k < l.length
  · rw [List.set_set, set_getD_self h]
  · have h1 : l.set k 0 = l := List.set_eq_of_length_le (by omega)
    rw [h1, List.set_eq_of_length_le (by omega)]

lemma getCell_flat (b : List Nat) (k : Nat) : getCell b (k / 9) (k % 9) = b.getD k 0 := by
  unfold getCell
  rw [Nat.div_add_mod]

/-- `unitMates` is symmetric. -/
lemma unitMates_symm {r c r' c' : Nat} (h : unitMates r c r' c') : unitMates r' c' r c := by
  unfold unitMates at *
  tauto

/-- Characterization of `is_valid`: true iff no cell sharing a unit with
`(row, col)` — including `(row, col)` itself — holds `num`. -/
lemma is_valid_iff {b : List Nat} {row col num : Nat} (hr : row < 9) (hc : col < 9) :
    is_valid b row col num = true ↔
      ∀ r', r' < 9 → ∀ c', c' < 9 → unitMates row col r' c' → getCell b r' c' ≠ num := by
  unfold is_valid
  simp only [Bool.and_eq_true, List.all_eq_true, List.mem_range, bne_iff_ne, ne_eq]
  constructor
  · rintro ⟨⟨hrow, hcol⟩, hbox⟩ r' hr' c' hc' hu
    rcases hu with h | h | ⟨h1, h2⟩
    · subst h
      exact hrow c' hc'
    · subst h
      exact hcol r' hr'
    · have e1 : r' % 3 + (row - row % 3) = r' := by omega
      have e2 : c' % 3 + (col - col % 3) = c' := by omega
      have := hbox (r' % 3) (by omega) (c' % 3) (by omega)
      rwa [e1, e2] at this
  · intro h
    refine ⟨⟨fun x hx => ?_, fun x hx => ?_⟩, fun i hi j hj => ?_⟩
    · exact h row hr x hx (Or.inl rfl)
    · exact h x hx col hc (Or.inr (Or.inl rfl))
    · exact h (i + (row - row % 3)) (by omega) (j + (col - col % 3)) (by omega)
        (Or.inr (Or.inr ⟨by omega, by omega⟩))

lemma findEmpty_none_iff {b : List Nat} :
    findEmpty b = none ↔ ∀ k, k < b.length → b.getD k 0 ≠ 0 := by
  induction b with
  | nil => simp [findEmpty]
  | cons c rest ih =>
    unfold findEmpty
    by_cases hc : c = 0
    · subst hc
      simp only [if_pos rfl]
      constructor
      · intro h
        exact absurd h (by simp)
      · intro h
        exact absurd (h 0 (by simp) rfl) (by simp)
    · simp only [if_neg hc, Option.map_eq_none', ih]
      constructor
      · intro h k hk
        cases k with
        | zero => simpa using hc
        | succ k => exact h k (by simpa [List.length_cons] using hk)
      · intro h k hk
        exact h (k + 1) (by simp [List.length_cons]; omega)

lemma tryCell_cases (slv : List Nat → Bool × List Nat) (b : List Nat) (k : Nat)
    (l : List Nat) :
    (∃ num ∈ l, is_valid b (k / 9) (k % 9) num = true ∧
      slv (b.set k num) = (true, (tryCell slv b k l).snd) ∧
      (tryCell slv b k l).fst = true) ∨
    (tryCell slv b k l = (false, b) ∧
      ∀ num ∈ l, is_valid b (k / 9) (k % 9) num = true → (slv (b.set k num)).fst = false) := by
  induction l with
  | nil =>
    right
    exact ⟨rfl, by simp⟩
  | cons num rest ih =>
    by_cases hv : is_valid b (k / 9) (k % 9) num = true
    · rcases hs : slv (b.set k num) with ⟨fb, bb⟩
      cases fb
      · have heq : tryCell slv b k (num :: rest) = tryCell slv b k rest := by
          simp only [tryCell, hv, if_pos, hs]
        rcases ih with ⟨n', hmem, hval, hslv, hfst⟩ | ⟨hfalse, hall⟩
        · exact Or.inl ⟨n', List.mem_cons_of_mem _ hmem, hval, by rwa [heq], by rwa [heq]⟩
        · refine Or.inr ⟨by rwa [heq], ?_⟩
          intro n' hmem hval
          rcases List.mem_cons.mp hmem with rfl | hmem
          · rw [hs]
          · exact hall n' hmem hval
      · have heq : tryCell slv b k (num :: rest) = (true, bb) := by
          simp only [tryCell, hv, if_pos, hs]
        exact Or.inl ⟨num, List.mem_cons_self _ _, hv, by rw [heq, hs], by rw [heq]⟩
    · have heq : tryCell slv b k (num :: rest) = tryCell slv b k rest := by
        simp only [tryCell, hv, if_neg, Bool.false_eq_true, if_false]
      rcases ih with ⟨n', hmem, hval, hslv, hfst⟩ | ⟨hfalse, hall⟩
      · exact Or.inl ⟨n', List.mem_cons_of_mem _ hmem, hval, by rwa [heq], by rwa [heq]⟩
      · refine Or.inr ⟨by rwa [heq], ?_⟩
        intro n' hmem hval
        rcases List.mem_cons.mp hmem with rfl | hmem
        · exact absurd hval hv
        · exact hall n' hmem hval

lemma tryCell_success {slv : List Nat → Bool × List Nat} {b : List Nat} {k num : Nat}
    {l : List Nat} (hmem : num ∈ l) (hval : is_valid b (k / 9) (k % 9) num = true)
    (hslv : (slv (b.set k num)).fst = true) : (tryCell slv b k l).fst = true := by
  rcases tryCell_cases slv b k l with ⟨_, _, _, _, hfst⟩ | ⟨_, hall⟩
  · exact hfst
  · rw [hall num hmem hval] at hslv
    exact absurd hslv (by simp)

lemma findEmpty_some {b : List Nat} {k : Nat} (h : findEmpty b = some k) :
    k < b.length ∧ b.getD k 0 = 0 := by
  induction b generalizing k with
  | nil => simp [findEmpty] at h
  | cons c rest ih =>
    unfold findEmpty at h
    by_cases hc : c = 0
    · subst hc
      rw [if_pos rfl] at h
      simp only [Option.some.injEq] at h
      simp [← h]
    · simp only [if_neg hc, Option.map_eq_some'] at h
      obtain ⟨k', hk', rfl⟩ := h
      obtain ⟨h1, h2⟩ := ih hk'
      exact ⟨by simp [List.length_cons]; omega, by simpa using h2⟩

end Sudoku

namespace Sudoku

lemma digits_mem_iff {num : Nat} :
    num ∈ ([1, 2, 3, 4, 5, 6, 7, 8, 9] : List Nat) ↔ 1 ≤ num ∧ num ≤ 9 := by
  simp only [List.mem_cons, List.mem_singleton, List.not_mem_nil, or_false]
  omega

lemma solveAux_succ_some {fuel : Nat} {b : List Nat} {k : Nat}
    (hfe : findEmpty b = some k) :
    solveAux (fuel + 1) b = tryCell (solveAux fuel) b k [1, 2, 3, 4, 5, 6, 7, 8, 9] := by
  simp only [solveAux, hfe]

lemma solveAux_succ_none {fuel : Nat} {b : List Nat} (hfe : findEmpty b = none) :
    solveAux (fuel + 1) b = (true, b) := by
  simp only [solveAux, hfe]

lemma solveAux_false_snd {fuel : Nat} {b : List Nat}
    (h : (solveAux fuel b).fst = false) : (solveAux fuel b).snd = b := by
  cases fuel with
  | zero => rfl
  | succ fuel =>
    cases hfe : findEmpty b with
    | none => rw [solveAux_succ_none hfe] at h; simp at h
    | some k =>
      rw [solveAux_succ_some hfe] at h ⊢
      rcases tryCell_cases (solveAux fuel) b k [1, 2, 3, 4, 5, 6, 7, 8, 9] with
        ⟨_, _, _, _, hfst⟩ | ⟨hfalse, _⟩
      · rw [hfst] at h; simp at h
      · rw [hfalse]

lemma solveAux_length {fuel : Nat} {b : List Nat} :
    (solveAux fuel b).snd.length = b.length := by
  induction fuel generalizing b with
  | zero => rfl
  | succ fuel ih =>
    cases hfe : findEmpty b with
    | none => rw [solveAux_succ_none hfe]
    | some k =>
      rw [solveAux_succ_some hfe]
      rcases tryCell_cases (solveAux fuel) b k [1, 2, 3, 4, 5, 6, 7, 8, 9] with
        ⟨num, _, _, hslv, _⟩ | ⟨hfalse, _⟩
      · have := congrArg (fun p => p.snd.length) hslv
        simp only at this
        rw [← this, ih, List.length_set]
      · rw [hfalse]

lemma solveAux_extends {fuel : Nat} {b : List Nat}
    (h : (solveAux fuel b).fst = true) : extendsBoard b (solveAux fuel b).snd := by
  induction fuel generalizing b with
  | zero => simp [solveAux] at h
  | succ fuel ih =>
    cases hfe : findEmpty b with
    | none =>
      rw [solveAux_succ_none hfe]
      intro j _ _
      rfl
    | some k =>
      obtain ⟨hk, hk0⟩ := findEmpty_some hfe
      rw [solveAux_succ_some hfe] at h ⊢
      rcases tryCell_cases (solveAux fuel) b k [1, 2, 3, 4, 5, 6, 7, 8, 9] with
        ⟨num, _, _, hslv, _⟩ | ⟨hfalse, _⟩
      · have hext := ih (b := b.set k num) (by rw [hslv])
        have hsnd : (solveAux fuel (b.set k num)).snd = (tryCell (solveAux fuel) b k
            [1, 2, 3, 4, 5, 6, 7, 8, 9]).snd := congrArg (fun p => p.snd) hslv
        intro j hj hj0
        have hjk : j ≠ k := fun hjk => hj0 (by rw [hjk, hk0])
        have := hext j hj (by rwa [getD_set_ne (Ne.symm hjk)])
        rw [hsnd] at this
        rw [this, getD_set_ne (Ne.symm hjk)]
      · rw [hfalse] at h
        simp at h

lemma solveAux_filled {fuel : Nat} {b : List Nat}
    (h : (solveAux fuel b).fst = true) : findEmpty (solveAux fuel b).snd = none := by
  induction fuel generalizing b with
  | zero => simp [solveAux] at h
  | succ fuel ih =>
    cases hfe : findEmpty b with
    | none => rwa [solveAux_succ_none hfe]
    | some k =>
      rw [solveAux_succ_some hfe] at h ⊢
      rcases tryCell_cases (solveAux fuel) b k [1, 2, 3, 4, 5, 6, 7, 8, 9] with
        ⟨num, _, _, hslv, _⟩ | ⟨hfalse, _⟩
      · have hsnd : (solveAux fuel (b.set k num)).snd = (tryCell (solveAux fuel) b k
            [1, 2, 3, 4, 5, 6, 7, 8, 9]).snd := congrArg (fun p => p.snd) hslv
        rw [← hsnd]
        exact ih (by rw [hslv])
      · rw [hfalse] at h
        simp at h

end Sudoku

namespace Sudoku

lemma pair_ne_of_flat_ne {r c r' c' : Nat} (hc : c < 9) (hc' : c' < 9)
    (h : 9 * r + c ≠ 9 * r' + c') : (r, c) ≠ (r', c') := by
  intro he
  rw [Prod.mk.injEq] at he
  omega

lemma flat_eq_cell {r c k : Nat} (hr : r < 9) (hc : c < 9) (h : 9 * r + c = k) :
    r = k / 9 ∧ c = k % 9 := by omega

/-- Placing a digit that `is_valid` accepts at an empty cell preserves
consistency. -/
lemma consistent_set {b : List Nat} {k num : Nat} (hlen : b.length = 81)
    (hcons : consistentBoard b) (hk : k < 81) (hk0 : b.getD k 0 = 0)
    (hv : is_valid b (k / 9) (k % 9) num = true) (hnum : num ≠ 0) :
    consistentBoard (b.set k num) := by
  have hklen : k < b.length := by omega
  have hchar := (@is_valid_iff b (k / 9) (k % 9) num
    (Nat.div_lt_of_lt_mul (by omega)) (Nat.mod_lt _ (by omega))).mp hv
  intro r hr c hc r' hr' c' hc' hne hu hnz
  by_cases h1 : 9 * r + c = k
  · obtain ⟨hre, hce⟩ := flat_eq_cell hr hc h1
    by_cases h2 : 9 * r' + c' = k
    · obtain ⟨hre', hce'⟩ := flat_eq_cell hr' hc' h2
      exact absurd (by rw [Prod.mk.injEq]; omega) hne
    · have hval : getCell (b.set k num) r c = num := by
        unfold getCell
        rw [h1, getD_set_self hklen]
      have hval' : getCell (b.set k num) r' c' = getCell b r' c' := by
        unfold getCell
        exact getD_set_ne (fun he => h2 he.symm)
      rw [hval, hval']
      exact fun he => hchar r' hr' c' hc' (by rwa [← hre, ← hce]) he.symm
  · have hval : getCell (b.set k num) r c = getCell b r c := by
      unfold getCell
      exact getD_set_ne (fun he => h1 he.symm)
    by_cases h2 : 9 * r' + c' = k
    · obtain ⟨hre', hce'⟩ := flat_eq_cell hr' hc' h2
      have hval' : getCell (b.set k num) r' c' = num := by
        unfold getCell
        rw [h2, getD_set_self hklen]
      rw [hval, hval']
      exact hchar r hr c hc (by rw [← hre', ← hce']; exact unitMates_symm hu)
    · have hval' : getCell (b.set k num) r' c' = getCell b r' c' := by
        unfold getCell
        exact getD_set_ne (fun he => h2 he.symm)
      rw [hval] at hnz
      rw [hval, hval']
      exact hcons r hr c hc r' hr' c' hc' hne hu hnz

lemma bounded_set {b : List Nat} {k num : Nat} (hb : boundedBoard b) (hnum : num ≤ 9) :
    boundedBoard (b.set k num) := by
  intro j hj
  by_cases hjk : k = j
  · subst hjk
    by_cases hkl : k < b.length
    · rw [getD_set_self hkl]; exact hnum
    · rw [List.set_eq_of_length_le (by omega)]; exact hb k hj
  · rw [getD_set_ne hjk]; exact hb j hj

/-- The solver preserves boundedness and consistency of the board it returns
on success. -/
lemma solveAux_valid {fuel : Nat} {b : List Nat} (hlen : b.length = 81)
    (hb : boundedBoard b) (hc : consistentBoard b)
    (h : (solveAux fuel b).fst = true) :
    boundedBoard (solveAux fuel b).snd ∧ consistentBoard (solveAux fuel b).snd := by
  induction fuel generalizing b with
  | zero => simp [solveAux] at h
  | succ fuel ih =>
    cases hfe : findEmpty b with
    | none =>
      rw [solveAux_succ_none hfe]
      exact ⟨hb, hc⟩
    | some k =>
      obtain ⟨hk, hk0⟩ := findEmpty_some hfe
      have hk81 : k < 81 := by omega
      rw [solveAux_succ_some hfe] at h ⊢
      rcases tryCell_cases (solveAux fuel) b k [1, 2, 3, 4, 5, 6, 7, 8, 9] with
        ⟨num, hmem, hval, hslv, _⟩ | ⟨hfalse, _⟩
      · obtain ⟨hn1, hn9⟩ := digits_mem_iff.mp hmem
        have hsnd : (solveAux fuel (b.set k num)).snd = (tryCell (solveAux fuel) b k
            [1, 2, 3, 4, 5, 6, 7, 8, 9]).snd := congrArg (fun p => p.snd) hslv
        rw [← hsnd]
        exact ih (by rw [List.length_set]; exact hlen) (bounded_set hb hn9)
          (consistent_set hlen hc hk81 hk0 hval (by omega)) (by rw [hslv])
      · rw [hfalse] at h
        simp at h

/-- Completeness: whenever some valid completion of the board exists, the
backtracking search succeeds (given fuel exceeding the number of holes). -/
lemma solveAux_complete {fuel : Nat} {b s : List Nat} (hfuel : b.count 0 < fuel)
    (hlen : b.length = 81) (hext : extendsBoard b s) (hs : validBoard s) :
    (solveAux fuel b).fst = true := by
  induction fuel generalizing b with
  | zero => omega
  | succ fuel ih =>
    cases hfe : findEmpty b with
    | none => rw [solveAux_succ_none hfe]
    | some k =>
      obtain ⟨hk, hk0⟩ := findEmpty_some hfe
      have hk81 : k < 81 := by omega
      obtain ⟨hslen, hsfill, hsbnd, hscons⟩ := hs
      set v := s.getD k 0 with hv
      have hv0 : v ≠ 0 := hsfill k hk81
      have hv9 : v ≤ 9 := hsbnd k hk81
      have hval : is_valid b (k / 9) (k % 9) v = true := by
        rw [is_valid_iff (Nat.div_lt_of_lt_mul (by omega)) (Nat.mod_lt _ (by omega))]
        intro r' hr' c' hc' hu
        set j := 9 * r' + c' with hj
        have hj81 : j < 81 := by omega
        by_cases hjz : b.getD j 0 = 0
        · unfold getCell
          rw [← hj, hjz]
          exact fun he => hv0 he.symm
        · have hagree : s.getD j 0 = b.getD j 0 := hext j hj81 hjz
          have hjk : j ≠ k := fun he => hjz (he ▸ hk0)
          have hcell : getCell b r' c' = s.getD j 0 := by
            unfold getCell
            rw [← hj, hagree]
          rw [hcell]
          have hGr : getCell s r' c' = s.getD j 0 := by unfold getCell; rw [← hj]
          have hGk : getCell s (k / 9) (k % 9) = v := by
            rw [getCell_flat]
          have := hscons r' hr' c' hc' (k / 9) (Nat.div_lt_of_lt_mul (by omega))
            (k % 9) (Nat.mod_lt _ (by omega))
            (pair_ne_of_flat_ne hc' (Nat.mod_lt _ (by omega)) (by omega))
            (unitMates_symm hu) (by rw [hGr, hagree]; exact hjz)
          rw [hGr, hGk] at this
          exact this
      have hklen : k < b.length := by omega
      have hbk : b[k] = 0 := by
        rw [← List.getD_eq_getElem b 0 hklen]
        exact hk0
      have hcount : (b.set k v).count 0 < fuel := by
        have hset := List.count_set v 0 b k hklen
        rw [hbk] at hset
        have hvne : (v == 0) = false := by simpa using hv0
        rw [hvne] at hset
        simp at hset
        have hpos : 0 < b.count 0 := by
          rw [List.count_pos_iff]
          exact hbk ▸ List.getElem_mem hklen
        omega
      have hext' : extendsBoard (b.set k v) s := by
        intro j hj hj0
        by_cases hjk : k = j
        · subst hjk
          rw [getD_set_self hklen]
        · rw [getD_set_ne hjk] at hj0 ⊢
          exact hext j hj hj0
      have hrec : (solveAux fuel (b.set k v)).fst = true :=
        ih hcount (by rw [List.length_set]; exact hlen) hext'
      rw [solveAux_succ_some hfe]
      exact tryCell_success (digits_mem_iff.mpr ⟨by omega, hv9⟩) hval hrec

end Sudoku

namespace Sudoku

lemma check_st_snd_aux (n : Nat) : ∀ k b, 81 - k ≤ n → (check_solution_st b k).snd = b := by
  induction n with
  | zero =>
    intro k b h
    rw [check_solution_st, if_pos (by omega)]
  | succ n ih =>
    intro k b h
    rw [check_solution_st]
    by_cases h81 : 81 ≤ k
    · rw [if_pos h81]
    · rw [if_neg h81]
      simp only []
      by_cases h0 : getCell b (k / 9) (k % 9) = 0
      · rw [if_pos h0]
      · rw [if_neg h0]
        have hkb : k < b.length := by
          by_contra hge
          exact h0 (by rw [getCell_flat]; exact List.getD_eq_default _ _ (by omega))
        have hrestore : (b.set k 0).set k (getCell b (k / 9) (k % 9)) = b := by
          rw [getCell_flat]
          exact set_restore
        by_cases hval : is_valid (b.set k 0) (k / 9) (k % 9) (getCell b (k / 9) (k % 9)) = true
        · rw [hval]
          simp only [Bool.not_true, Bool.false_eq_true, if_false, hrestore]
          exact ih (k + 1) b (by omega)
        · rw [Bool.not_eq_true] at hval
          rw [hval]
          simp only [Bool.not_false, if_true]
          rw [hrestore]
  termination_by n => n

/-- The scan of `check_solution` from cell `k` onward answers true iff every
remaining cell is filled and revalidates after being cleared. -/
lemma check_st_fst_aux (n : Nat) : ∀ k b, 81 - k ≤ n →
    ((check_solution_st b k).fst = true ↔
      ∀ j, k ≤ j → j < 81 →
        b.getD j 0 ≠ 0 ∧ is_valid (b.set j 0) (j / 9) (j % 9) (b.getD j 0) = true) := by
  induction n with
  | zero =>
    intro k b h
    rw [check_solution_st, if_pos (by omega)]
    simp only [true_iff]
    intro j hj hj81
    omega
  | succ n ih =>
    intro k b h
    by_cases h81 : 81 ≤ k
    · rw [check_solution_st, if_pos h81]
      simp only [true_iff]
      intro j hj hj81
      omega
    · rw [check_solution_st, if_neg h81]
      simp only []
      have hflat : getCell b (k / 9) (k % 9) = b.getD k 0 := getCell_flat b k
      by_cases h0 : getCell b (k / 9) (k % 9) = 0
      · rw [if_pos h0]
        constructor
        · intro hf
          exact absurd hf (by simp)
        · intro hall
          exact absurd (by rw [← hflat]; exact h0) (hall k le_rfl (by omega)).1
      · rw [if_neg h0]
        have hkb : k < b.length := by
          by_contra hge
          exact h0 (by rw [hflat]; exact List.getD_eq_default _ _ (by omega))
        have hrestore : (b.set k 0).set k (getCell b (k / 9) (k % 9)) = b := by
          rw [hflat]
          exact set_restore
        by_cases hval : is_valid (b.set k 0) (k / 9) (k % 9) (getCell b (k / 9) (k % 9)) = true
        · rw [hval]
          simp only [Bool.not_true, Bool.false_eq_true, if_false, hrestore]
          rw [ih (k + 1) b (by omega)]
          constructor
          · intro hrest j hj hj81
            rcases Nat.eq_or_lt_of_le hj with rfl | hlt
            · exact ⟨by rw [← hflat]; exact h0, by rw [← hflat]; exact hval⟩
            · exact hrest j hlt hj81
          · intro hall j hj hj81
            exact hall j (by omega) hj81
        · rw [Bool.not_eq_true] at hval
          rw [hval]
          rw [if_pos (by simp)]
          constructor
          · intro hf
            exact absurd hf (by simp)
          · intro hall
            have h2 := (hall k le_rfl (by omega)).2
            rw [← hflat, hval] at h2
            exact absurd h2 (by simp)
  termination_by n => n

/-- Value-level characterization of `check_solution`. -/
lemma check_solution_true_iff (b : List Nat) :
    check_solution b = true ↔
      ∀ k, k < 81 →
        b.getD k 0 ≠ 0 ∧ is_valid (b.set k 0) (k / 9) (k % 9) (b.getD k 0) = true := by
  unfold check_solution
  simp only [List.all_eq_true, List.mem_range, Bool.and_eq_true, bne_iff_ne, ne_eq,
    getCell_flat]

end Sudoku

namespace Sudoku

/-- C1 (amended): for every 9x9 board with cell values at most 9 whose filled
cells are mutually conflict-free, `solve_sudoku` — the row-major scan trying
digits 1..9 ascending with backtracking — terminates and returns true iff the
board has a valid completion; on success the final board is a completely
filled valid solution extending the input, and on failure the board is
returned unchanged (every tried digit having been reset to 0). -/
theorem claimC1_solve_sudoku_correct (b : List Nat) (hlen : b.length = 81)
    (hbnd : boundedBoard b) (hcons : consistentBoard b) :
    ((solve_sudoku b).fst = true ↔ ∃ s, validBoard s ∧ extendsBoard b s) ∧
    ((solve_sudoku b).fst = true →
      validBoard (solve_sudoku b).snd ∧ extendsBoard b (solve_sudoku b).snd) ∧
    ((solve_sudoku b).fst = false → (solve_sudoku b).snd = b) := by
  unfold solve_sudoku
  have hforward : (solveAux 82 b).fst = true →
      validBoard (solveAux 82 b).snd ∧ extendsBoard b (solveAux 82 b).snd := by
    intro h
    have hext := solveAux_extends h
    have hlen' : (solveAux 82 b).snd.length = 81 := solveAux_length.trans hlen
    have hfe := solveAux_filled h
    have hfill : filledBoard (solveAux 82 b).snd := fun k hk =>
      (findEmpty_none_iff.mp hfe) k (by rw [hlen']; exact hk)
    have hv := solveAux_valid hlen hbnd hcons h
    exact ⟨⟨hlen', hfill, hv.1, hv.2⟩, hext⟩
  refine ⟨⟨fun h => ⟨(solveAux 82 b).snd, (hforward h).1, (hforward h).2⟩, ?_⟩,
    hforward, fun h => solveAux_false_snd h⟩
  rintro ⟨s, hs, hext⟩
  exact solveAux_complete
    (lt_of_le_of_lt (le_trans (List.count_le_length 0 b) (le_of_eq hlen)) (by omega))
    hlen hext hs

/-- C1 counterexample: on the completely filled all-ones board, `solve_sudoku`
returns true (the row-major scan finds no empty cell), yet the board is not a
valid solution and has no valid completion — refuting both "true iff a valid
solution" and "no valid completion implies false". -/
theorem claimC1_counterexample :
    (solve_sudoku (List.replicate 81 1)).fst = true ∧
    ¬ ∃ s, validBoard s ∧ extendsBoard (List.replicate 81 1) s := by
  constructor
  · decide
  · rintro ⟨s, ⟨hslen, hsfill, hsbnd, hscons⟩, hext⟩
    have h0 : s.getD 0 0 = 1 := hext 0 (by omega) (by decide)
    have h1 : s.getD 1 0 = 1 := hext 1 (by omega) (by decide)
    have hg0 : getCell s 0 0 = s.getD 0 0 := rfl
    have hg1 : getCell s 0 1 = s.getD 1 0 := rfl
    have := hscons 0 (by omega) 0 (by omega) 0 (by omega) 1 (by omega)
      (by decide) (Or.inl rfl) (by rw [hg0, h0]; omega)
    rw [hg0, hg1, h0, h1] at this
    exact this rfl

/-- C1 witness: the hypotheses of `claimC1_solve_sudoku_correct` hold at the
all-empty board, and the theorem applies there. -/
theorem claimC1_witness :
    (List.replicate 81 0 : List Nat).length = 81 ∧
    boundedBoard (List.replicate 81 0) ∧ consistentBoard (List.replicate 81 0) ∧
    (((solve_sudoku (List.replicate 81 0)).fst = true ↔
      ∃ s, validBoard s ∧ extendsBoard (List.replicate 81 0) s) ∧
    ((solve_sudoku (List.replicate 81 0)).fst = true →
      validBoard (solve_sudoku (List.replicate 81 0)).snd ∧
      extendsBoard (List.replicate 81 0) (solve_sudoku (List.replicate 81 0)).snd) ∧
    ((solve_sudoku (List.replicate 81 0)).fst = false →
      (solve_sudoku (List.replicate 81 0)).snd = List.replicate 81 0)) :=
  ⟨by decide, by decide, by decide,
    claimC1_solve_sudoku_correct (List.replicate 81 0) (by decide) (by decide) (by decide)⟩

/-- C2 (amended): for in-range arguments, `is_valid` returns true iff `num`
does not already occur at some other cell of the row, column, or box —
equivalently, iff placing `num` introduces no duplicate — provided the cell
`(row, col)` does not itself currently hold `num` (in particular whenever it
is empty).  The embedding is pure: the Python code only reads the board. -/
theorem claimC2_is_valid_spec (b : List Nat) (row col num : Nat) (hr : row < 9)
    (hc : col < 9) (hn : 1 ≤ num ∧ num ≤ 9) (hcell : getCell b row col ≠ num) :
    (is_valid b row col num = true ↔ ¬ introducesDuplicate b row col num) := by
  rw [is_valid_iff hr hc]
  constructor
  · rintro h ⟨r', hr', c', hc', hne, hu, heq⟩
    exact h r' hr' c' hc' hu heq
  · intro h r' hr' c' hc' hu heq
    by_cases hp : (r', c') = (row, col)
    · rw [Prod.mk.injEq] at hp
      rw [hp.1, hp.2] at heq
      exact hcell heq
    · exact h ⟨r', hr', c', hc', hp, hu, heq⟩

/-- C2 counterexample: on the board whose only entry is a 1 at (0,0), checking
`is_valid board 0 0 1` returns false although placing 1 at (0,0) introduces no
duplicate (the scan counts the target cell itself). -/
theorem claimC2_counterexample :
    is_valid ((List.replicate 81 0).set 0 1) 0 0 1 = false ∧
    ¬ introducesDuplicate ((List.replicate 81 0).set 0 1) 0 0 1 := by
  constructor
  · decide
  · rintro ⟨r', hr', c', hc', hne, hu, heq⟩
    by_cases h : 9 * r' + c' = 0
    · have hr0 : r' = 0 ∧ c' = 0 := by omega
      exact hne (by rw [hr0.1, hr0.2])
    · have hz : getCell ((List.replicate 81 0).set 0 1) r' c' = 0 := by
        unfold getCell
        rw [getD_set_ne (fun he => h he.symm), List.getD_eq_getElem?_getD,
          List.getElem?_replicate]
        split <;> rfl
      rw [hz] at heq
      exact absurd heq (by decide)

/-- C2 witness: the hypotheses of `claimC2_is_valid_spec` hold on the empty
board at (0,0) with num 5. -/
theorem claimC2_witness :
    (0 : Nat) < 9 ∧ (1 ≤ (5 : Nat) ∧ (5 : Nat) ≤ 9) ∧
    getCell (List.replicate 81 0) 0 0 ≠ 5 ∧
    (is_valid (List.replicate 81 0) 0 0 5 = true ↔
      ¬ introducesDuplicate (List.replicate 81 0) 0 0 5) :=
  ⟨by decide, by decide, by decide,
    claimC2_is_valid_spec (List.replicate 81 0) 0 0 5 (by decide) (by decide)
      (by decide) (by decide)⟩

/-- C3: `check_solution` (stateful translation, scanned from cell 0) agrees
with the value-level `check_solution`; it returns false whenever some cell is
0, and on a fully filled board it returns true iff every cell, temporarily
cleared, revalidates its original value via `is_valid`. -/
theorem claimC3_check_solution_spec (b : List Nat) :
    (check_solution_st b 0).fst = check_solution b ∧
    ((∃ k, k < 81 ∧ b.getD k 0 = 0) → (check_solution_st b 0).fst = false) ∧
    ((∀ k, k < 81 → b.getD k 0 ≠ 0) →
      ((check_solution_st b 0).fst = true ↔
        ∀ k, k < 81 → is_valid (b.set k 0) (k / 9) (k % 9) (b.getD k 0) = true)) := by
  have h1 := check_st_fst_aux 81 0 b (by omega)
  have h2 := check_solution_true_iff b
  have hiff : (check_solution_st b 0).fst = true ↔ check_solution b = true := by
    rw [h1, h2]
    constructor
    · intro h k hk
      exact h k (by omega) hk
    · intro h j _ hj
      exact h j hj
  refine ⟨Bool.eq_iff_iff.mpr hiff, ?_, ?_⟩
  · rintro ⟨k, hk, hk0⟩
    rw [← Bool.not_eq_true, h1]
    intro hall
    exact (hall k (by omega) hk).1 hk0
  · intro hfill
    rw [h1]
    constructor
    · intro h k hk
      exact (h k (by omega) hk).2
    · intro h j _ hj
      exact ⟨hfill j hj, h j hj⟩

/-- C3 witness: instance of `claimC3_check_solution_spec` at the all-ones
board (the theorem itself has no hypotheses; this instantiates it at a
concrete board). -/
theorem claimC3_witness :
    (check_solution_st (List.replicate 81 1) 0).fst = check_solution (List.replicate 81 1) ∧
    ((∃ k, k < 81 ∧ (List.replicate 81 1 : List Nat).getD k 0 = 0) →
      (check_solution_st (List.replicate 81 1) 0).fst = false) ∧
    ((∀ k, k < 81 → (List.replicate 81 1 : List Nat).getD k 0 ≠ 0) →
      ((check_solution_st (List.replicate 81 1) 0).fst = true ↔
        ∀ k, k < 81 → is_valid ((List.replicate 81 1).set k 0) (k / 9) (k % 9)
          ((List.replicate 81 1 : List Nat).getD k 0) = true)) :=
  claimC3_check_solution_spec (List.replicate 81 1)

/-- C8 (amended): `is_valid` performs no argument validation.  For `num`
outside 1..9 (here any `num ≥ 10`, which can never occur on a board with
values at most 9) the Python code proceeds through all three scans and
computes the boolean `True` instead of failing fast with an argument error. -/
theorem claimC8_no_range_check (b : List Nat) (row col num : Nat) (hr : row < 9)
    (hc : col < 9) (hb : boundedBoard b) (hn : 10 ≤ num) :
    is_valid b row col num = true := by
  rw [is_valid_iff hr hc]
  intro r' hr' c' hc' _
  have := hb (9 * r' + c') (by omega)
  unfold getCell
  omega

/-- C8 counterexample: with the out-of-range value 10, `is_valid` on the empty
board simply computes the boolean result true — no argument error is raised
and no failure occurs, refuting the fail-fast requirement. -/
theorem claimC8_counterexample :
    is_valid (List.replicate 81 0) 0 0 10 = true := by decide

/-- C8 witness: the hypotheses of `claimC8_no_range_check` hold at the empty
board with num 10. -/
theorem claimC8_witness :
    (0 : Nat) < 9 ∧ boundedBoard (List.replicate 81 0) ∧ (10 : Nat) ≤ 10 ∧
    is_valid (List.replicate 81 0) 0 0 10 = true :=
  ⟨by decide, by decide, by decide,
    claimC8_no_range_check (List.replicate 81 0) 0 0 10 (by decide) (by decide)
      (by decide) (by decide)⟩

/-- C10: `check_solution` restores the board on every path — the early return
at a zero cell, the failure return after a failed revalidation, and the
success path — so the returned board always equals the input board. -/
theorem claimC10_check_solution_frame (b : List Nat) (k : Nat) :
    (check_solution_st b k).snd = b :=
  check_st_snd_aux 81 k b (by omega)

end Sudoku


namespace Sudoku

lemma foldl_set_length (l : List Nat) (f g : Nat → Nat) (b : List Nat) :
    (l.foldl (fun acc t => acc.set (f t) (g t)) b).length = b.length := by
  induction l generalizing b with
  | nil => rfl
  | cons t rest ih => rw [List.foldl_cons, ih, List.length_set]

lemma foldl_set_getD_out (l : List Nat) (f g : Nat → Nat) (b : List Nat) (m : Nat)
    (hm : ∀ t ∈ l, f t ≠ m) :
    (l.foldl (fun acc t => acc.set (f t) (g t)) b).getD m 0 = b.getD m 0 := by
  induction l generalizing b with
  | nil => rfl
  | cons t rest ih =>
    rw [List.foldl_cons, ih _ (fun t' ht' => hm t' (List.mem_cons_of_mem _ ht')),
      getD_set_ne (hm t (List.mem_cons_self _ _))]

lemma foldl_set_getD_in (l : List Nat) (f g : Nat → Nat) (b : List Nat) (t0 : Nat)
    (ht0 : t0 ∈ l) (hinj : (l.map f).Nodup) (hlen : f t0 < b.length) :
    (l.foldl (fun acc t => acc.set (f t) (g t)) b).getD (f t0) 0 = g t0 := by
  induction l generalizing b with
  | nil => simp at ht0
  | cons t rest ih =>
    rw [List.map_cons, List.nodup_cons] at hinj
    rcases List.mem_cons.mp ht0 with rfl | hmem
    · rw [List.foldl_cons]
      have hout : ∀ t' ∈ rest, f t' ≠ f t0 := by
        intro t' ht' he
        exact hinj.1 (he ▸ List.mem_map_of_mem f ht')
      rw [foldl_set_getD_out rest f g _ _ hout, getD_set_self hlen]
    · rw [List.foldl_cons]
      exact ih _ hmem hinj.2 (by rw [List.length_set]; exact hlen)

lemma fill_box_getD_out {b : List Nat} {row col m : Nat} {nums : List Nat}
    (hm : ∀ t, t < 9 → 9 * (row + t / 3) + (col + t % 3) ≠ m) :
    (fill_box b row col nums).getD m 0 = b.getD m 0 := by
  unfold fill_box
  exact foldl_set_getD_out (List.range 9) (fun t => 9 * (row + t / 3) + (col + t % 3))
    (fun t => nums.getD t 0) b m (fun t ht => hm t (List.mem_range.mp ht))

lemma fill_box_getD_in {b : List Nat} {row col : Nat} {nums : List Nat} {i j : Nat}
    (hrow : row ≤ 6) (hcol : col ≤ 6) (hlen : b.length = 81) (hi : i < 3) (hj : j < 3) :
    (fill_box b row col nums).getD (9 * (row + i) + (col + j)) 0 =
      nums.getD (3 * i + j) 0 := by
  unfold fill_box
  have hidx : 9 * (row + i) + (col + j) =
      (fun t => 9 * (row + t / 3) + (col + t % 3)) (3 * i + j) := by
    simp only []
    omega
  rw [hidx]
  have hmem : 3 * i + j ∈ List.range 9 := List.mem_range.mpr (by omega)
  have hinj : ((List.range 9).map fun t => 9 * (row + t / 3) + (col + t % 3)).Nodup := by
    refine List.Nodup.map_on ?_ (List.nodup_range 9)
    intro t ht t' ht' he
    rw [List.mem_range] at ht ht'
    omega
  have hlt : (fun t => 9 * (row + t / 3) + (col + t % 3)) (3 * i + j) < b.length := by
    simp only []
    omega
  exact foldl_set_getD_in (List.range 9) _ (fun t => nums.getD t 0) b (3 * i + j)
    hmem hinj hlt

lemma replicate_getD_zero (m : Nat) : (List.replicate 81 (0 : Nat)).getD m 0 = 0 := by
  rw [List.getD_eq_getElem?_getD, List.getElem?_replicate]
  split <;> rfl

lemma seed_length {shuffles : Nat → List Nat} : (seedBoard shuffles).length = 81 := by
  unfold seedBoard fill_box
  rw [foldl_set_length, foldl_set_length, foldl_set_length, List.length_replicate]

/-- Cell values of the seeded board: the diagonal boxes carry the shuffled
digits, everything else is 0. -/
lemma seedBoard_getD {shuffles : Nat → List Nat} {r c : Nat} (hr : r < 9) (hc : c < 9) :
    getCell (seedBoard shuffles) r c =
      if r / 3 = c / 3 then (shuffles (r / 3)).getD (3 * (r % 3) + c % 3) 0 else 0 := by
  unfold getCell seedBoard
  have hlen1 : (List.replicate 81 (0 : Nat)).length = 81 := List.length_replicate 81 0
  have hlen2 : (fill_box (List.replicate 81 0) 0 0 (shuffles 0)).length = 81 := by
    unfold fill_box
    rw [foldl_set_length, List.length_replicate]
  have hlen3 : (fill_box (fill_box (List.replicate 81 0) 0 0 (shuffles 0)) 3 3
      (shuffles 1)).length = 81 := by
    unfold fill_box
    rw [foldl_set_length]
    exact hlen2
  by_cases hbox : r / 3 = c / 3
  · rw [if_pos hbox]
    have hr3 : r / 3 = 0 ∨ r / 3 = 1 ∨ r / 3 = 2 := by omega
    rcases hr3 with h3 | h3 | h3
    · have e : 9 * r + c = 9 * (0 + r % 3) + (0 + c % 3) := by omega
      rw [e, fill_box_getD_out (fun t ht => by omega),
        fill_box_getD_out (fun t ht => by omega),
        fill_box_getD_in (by omega) (by omega) hlen1 (by omega) (by omega), h3]
    · have e : 9 * r + c = 9 * (3 + r % 3) + (3 + c % 3) := by omega
      rw [e, fill_box_getD_out (fun t ht => by omega),
        fill_box_getD_in (by omega) (by omega) hlen2 (by omega) (by omega), h3]
    · have e : 9 * r + c = 9 * (6 + r % 3) + (6 + c % 3) := by omega
      rw [e, fill_box_getD_in (by omega) (by omega) hlen3 (by omega) (by omega), h3]
  · rw [if_neg hbox]
    rw [fill_box_getD_out (fun t ht => by omega), fill_box_getD_out (fun t ht => by omega),
      fill_box_getD_out (fun t ht => by omega), replicate_getD_zero]

end Sudoku

namespace Sudoku

lemma perm_getD_le9 {nums : List Nat}
    (hp : nums.Perm [1, 2, 3, 4, 5, 6, 7, 8, 9]) (t : Nat) : nums.getD t 0 ≤ 9 := by
  by_cases ht : t < nums.length
  · rw [List.getD_eq_getElem _ _ ht]
    have hmem := hp.mem_iff.mp (List.getElem_mem ht)
    simp only [List.mem_cons, List.not_mem_nil, or_false] at hmem
    omega
  · rw [List.getD_eq_default _ _ (by omega)]
    omega

lemma perm_getD_inj {nums : List Nat} (hp : nums.Perm [1, 2, 3, 4, 5, 6, 7, 8, 9])
    {t t' : Nat} (ht : t < 9) (ht' : t' < 9) (hne : t ≠ t') :
    nums.getD t 0 ≠ nums.getD t' 0 := by
  have hlen : nums.length = 9 := by
    rw [hp.length_eq]
    rfl
  have hnd : nums.Nodup := hp.nodup_iff.mpr (by decide)
  rw [List.getD_eq_getElem _ _ (by omega), List.getD_eq_getElem _ _ (by omega)]
  intro he
  exact hne ((hnd.getElem_inj_iff).mp he)

lemma seed_bounded {shuffles : Nat → List Nat}
    (hperm : ∀ i, i < 3 → (shuffles i).Perm [1, 2, 3, 4, 5, 6, 7, 8, 9]) :
    boundedBoard (seedBoard shuffles) := by
  intro k hk
  have hflat := getCell_flat (seedBoard shuffles) k
  rw [← hflat, seedBoard_getD (by omega) (by omega)]
  split
  · exact perm_getD_le9 (hperm _ (by omega)) _
  · omega

lemma seed_consistent {shuffles : Nat → List Nat}
    (hperm : ∀ i, i < 3 → (shuffles i).Perm [1, 2, 3, 4, 5, 6, 7, 8, 9]) :
    consistentBoard (seedBoard shuffles) := by
  intro r hr c hc r' hr' c' hc' hne hu hnz
  rw [seedBoard_getD hr hc] at hnz ⊢
  rw [seedBoard_getD hr' hc']
  by_cases hbox : r / 3 = c / 3
  · rw [if_pos hbox] at hnz ⊢
    by_cases hbox' : r' / 3 = c' / 3
    · rw [if_pos hbox']
      have hw : r / 3 = r' / 3 := by
        rcases hu with h | h | ⟨h1, h2⟩ <;> omega
      rw [← hw]
      have hne' : ¬(r = r' ∧ c = c') := by
        intro ⟨h1, h2⟩
        exact hne (by rw [h1, h2])
      exact perm_getD_inj (hperm _ (by omega)) (by omega) (by omega) (by omega)
    · rw [if_neg hbox']
      exact hnz
  · rw [if_neg hbox] at hnz
    exact absurd rfl hnz

lemma count0_filled {s : List Nat} (h : s.count 0 = 0) (hlen : s.length = 81) :
    filledBoard s := by
  intro k hk h0
  have hkl : k < s.length := by omega
  rw [List.getD_eq_getElem _ _ hkl] at h0
  have hmem : (0 : Nat) ∈ s := h0 ▸ List.getElem_mem hkl
  rw [← List.count_pos_iff] at hmem
  omega

lemma removeCells_spec {picks : Nat → Fin 9 × Fin 9} {target : Nat} :
    ∀ fuel i removed b p, removed ≤ target → b.length = 81 →
    removeCells picks target fuel i removed b = some p →
    p.length = 81 ∧ p.count 0 + removed = b.count 0 + target ∧
    (∀ k, p.getD k 0 ≠ 0 → p.getD k 0 = b.getD k 0) := by
  intro fuel
  induction fuel with
  | zero =>
    intro i removed b p hrm hlen h
    simp only [removeCells] at h
    split at h
    · cases h
      refine ⟨hlen, by omega, fun k _ => rfl⟩
    · cases h
  | succ fuel ih =>
    intro i removed b p hrm hlen h
    simp only [removeCells] at h
    split at h
    · cases h
      refine ⟨hlen, by omega, fun k _ => rfl⟩
    · rename_i hlt
      set k0 := 9 * (picks i).1.val + (picks i).2.val with hk0
      have hk81 : k0 < 81 := by
        have h1 := (picks i).1.isLt
        have h2 := (picks i).2.isLt
        omega
      have hk0len : k0 < b.length := by omega
      split at h
      · rename_i hbz
        obtain ⟨hplen, hcnt, hagree⟩ := ih (i + 1) (removed + 1) (b.set k0 0) p
          (by omega) (by rw [List.length_set]; exact hlen) h
        have hbk : (b[k0] == (0 : Nat)) = false := by
          have : b[k0] = b.getD k0 0 := (List.getD_eq_getElem _ _ hk0len).symm
          simp only [this, beq_eq_false_iff_ne, ne_eq]
          exact hbz
        have hset := List.count_set 0 0 b k0 hk0len
        rw [hbk] at hset
        simp at hset
        refine ⟨hplen, by omega, fun j hj => ?_⟩
        have h1 := hagree j hj
        by_cases hjk : k0 = j
        · subst hjk
          rw [getD_set_self hk0len] at h1
          rw [h1] at hj
          exact absurd rfl hj
        · rw [getD_set_ne hjk] at h1
          exact h1
      · exact ih (i + 1) removed b p hrm hlen h

lemma gcb_eq (shuffles : Nat → List Nat) :
    generate_complete_board shuffles = (solveAux 82 (seedBoard shuffles)).snd := rfl

lemma gcb_length (shuffles : Nat → List Nat) :
    (generate_complete_board shuffles).length = 81 := by
  rw [gcb_eq, solveAux_length]
  exact seed_length

lemma generate_puzzle_eq {shuffles : Nat → List Nat} {picks : Nat → Fin 9 × Fin 9}
    {fuel : Nat} {d : String} {p s : List Nat}
    (h : generate_puzzle shuffles picks fuel d = some (p, s)) :
    s = generate_complete_board shuffles ∧
    removeCells picks (difficulty_map d) fuel 0 0 (generate_complete_board shuffles) =
      some p := by
  unfold generate_puzzle at h
  rw [Option.map_eq_some'] at h
  obtain ⟨p', hp', heq⟩ := h
  rw [Prod.mk.injEq] at heq
  exact ⟨heq.2.symm, heq.1 ▸ hp'⟩

end Sudoku

namespace Sudoku

/-- C4: whenever `generate_puzzle` returns (i.e. the random removal loop
finishes within its fuel) and the internal backtracking completion produced a
fully filled board (no zeros in the returned solution), the puzzle has exactly
40/50/60 zero cells for easy/medium/hard, and every other cell equals the
corresponding cell of the returned solution. -/
theorem claimC4_generate_puzzle_holes (shuffles : Nat → List Nat)
    (picks : Nat → Fin 9 × Fin 9) (fuel : Nat) (d : String) (p s : List Nat)
    (hgp : generate_puzzle shuffles picks fuel d = some (p, s))
    (hs : s.count 0 = 0) :
    (d = "easy" → p.count 0 = 40) ∧ (d = "medium" → p.count 0 = 50) ∧
    (d = "hard" → p.count 0 = 60) ∧
    (∀ k, k < 81 → p.getD k 0 ≠ 0 → p.getD k 0 = s.getD k 0) := by
  obtain ⟨hseq, hrem⟩ := generate_puzzle_eq hgp
  rw [← hseq] at hrem
  have hslen : s.length = 81 := by
    rw [hseq]
    exact gcb_length shuffles
  obtain ⟨hplen, hcnt, hagree⟩ :=
    removeCells_spec fuel 0 0 s p (Nat.zero_le _) hslen hrem
  rw [hs] at hcnt
  refine ⟨fun hd => ?_, fun hd => ?_, fun hd => ?_, fun k _ hk0 => hagree k hk0⟩
  · subst hd
    have hdm : difficulty_map "easy" = 40 := rfl
    omega
  · subst hd
    have hdm : difficulty_map "medium" = 50 := rfl
    omega
  · subst hd
    have hdm : difficulty_map "hard" = 60 := rfl
    omega

/-- C9: for a pair returned by `generate_puzzle` (shuffle outputs being
permutations of 1..9, the removal loop finishing, and the internal completion
having filled the board), clearing any puzzle cell and re-validating the
corresponding solution value through `is_valid` succeeds. -/
theorem claimC9_round_trip (shuffles : Nat → List Nat) (picks : Nat → Fin 9 × Fin 9)
    (fuel : Nat) (d : String) (p s : List Nat) (r c : Nat)
    (hperm : ∀ i, i < 3 → (shuffles i).Perm [1, 2, 3, 4, 5, 6, 7, 8, 9])
    (hgp : generate_puzzle shuffles picks fuel d = some (p, s))
    (hs : s.count 0 = 0) (hr : r < 9) (hc : c < 9) :
    is_valid (p.set (9 * r + c) 0) r c (getCell s r c) = true := by
  obtain ⟨hseq, hrem⟩ := generate_puzzle_eq hgp
  rw [← hseq] at hrem
  have hslen : s.length = 81 := by
    rw [hseq]
    exact gcb_length shuffles
  obtain ⟨hplen, _, hagree⟩ :=
    removeCells_spec fuel 0 0 s p (Nat.zero_le _) hslen hrem
  have hsfill : filledBoard s := count0_filled hs hslen
  have hfst : (solveAux 82 (seedBoard shuffles)).fst = true := by
    by_cases hf : (solveAux 82 (seedBoard shuffles)).fst = true
    · exact hf
    · exfalso
      rw [Bool.not_eq_true] at hf
      have hsnd := solveAux_false_snd hf
      have hs' : s = seedBoard shuffles := by
        rw [hseq, gcb_eq, hsnd]
      have hz : getCell s 0 3 = 0 := by
        rw [hs', seedBoard_getD (by omega) (by omega), if_neg (by omega)]
      exact hsfill 3 (by omega) hz
  have hvalid := solveAux_valid seed_length (seed_bounded hperm) (seed_consistent hperm) hfst
  have hsc : consistentBoard s := by
    rw [hseq, gcb_eq]
    exact hvalid.2
  have hk81 : 9 * r + c < 81 := by omega
  have hv0 : getCell s r c ≠ 0 := hsfill (9 * r + c) hk81
  rw [is_valid_iff hr hc]
  intro r'' hr'' c'' hc'' hu
  by_cases hjk : 9 * r'' + c'' = 9 * r + c
  · have hcl : getCell (p.set (9 * r + c) 0) r'' c'' = 0 := by
      unfold getCell
      rw [hjk, getD_set_self (by omega : 9 * r + c < p.length)]
    rw [hcl]
    exact fun he => hv0 he.symm
  · have hgd : getCell (p.set (9 * r + c) 0) r'' c'' = p.getD (9 * r'' + c'') 0 := by
      unfold getCell
      exact getD_set_ne (fun he => hjk he.symm)
    rw [hgd]
    by_cases hpz : p.getD (9 * r'' + c'') 0 = 0
    · rw [hpz]
      exact fun he => hv0 he.symm
    · rw [hagree _ hpz]
      have hpair : (r'', c'') ≠ (r, c) := by
        intro he
        rw [Prod.mk.injEq] at he
        exact hjk (by rw [he.1, he.2])
      have hnz : getCell s r'' c'' ≠ 0 := by
        unfold getCell
        rw [← hagree _ hpz]
        exact hpz
      exact hsc r'' hr'' c'' hc'' r hr c hc hpair (unitMates_symm hu) hnz

end Sudoku

namespace Sudoku

set_option maxRecDepth 1000000 in
set_option maxHeartbeats 4000000 in
/-- Concrete evaluation of the full generator pipeline at the oracles
`shuffles0`/`picks0`: the backtracking completion succeeds and the removal
loop finishes, yielding the literal pair `(pLitE, sLit)`. -/
lemma gp_easy_eq : generate_puzzle shuffles0 picks0 100 "easy" = some (pLitE, sLit) := by
  decide

/-- C4 witness: the hypotheses of `claimC4_generate_puzzle_holes` hold at the
concrete oracles `shuffles0`/`picks0` with difficulty "easy". -/
theorem claimC4_witness :
    generate_puzzle shuffles0 picks0 100 "easy" = some (pLitE, sLit) ∧
    sLit.count 0 = 0 ∧
    ((("easy" : String) = "easy" → pLitE.count 0 = 40) ∧
     (("easy" : String) = "medium" → pLitE.count 0 = 50) ∧
     (("easy" : String) = "hard" → pLitE.count 0 = 60) ∧
     (∀ k, k < 81 → pLitE.getD k 0 ≠ 0 → pLitE.getD k 0 = sLit.getD k 0)) :=
  ⟨gp_easy_eq, by decide,
    claimC4_generate_puzzle_holes shuffles0 picks0 100 "easy" pLitE sLit gp_easy_eq
      (by decide)⟩

/-- C9 witness: the hypotheses of `claimC9_round_trip` hold at the concrete
oracles `shuffles0`/`picks0`, instantiated at cell (0,0). -/
theorem claimC9_witness :
    (∀ i, i < 3 → (shuffles0 i).Perm [1, 2, 3, 4, 5, 6, 7, 8, 9]) ∧
    sLit.count 0 = 0 ∧ (0 : Nat) < 9 ∧
    is_valid (pLitE.set (9 * 0 + 0) 0) 0 0 (getCell sLit 0 0) = true :=
  ⟨by decide, by decide, by decide,
    claimC9_round_trip shuffles0 picks0 100 "easy" pLitE sLit 0 0 (by decide)
      gp_easy_eq (by decide) (by decide) (by decide)⟩

end Sudoku

namespace Maze

lemma adj_symm {p q : Pos} (h : adj p q) : adj q p := by
  unfold adj at *
  omega

lemma lookup_eq_none_iff {pm : List (Pos × Pos)} {d : Pos} :
    pm.lookup d = none ↔ d ∉ pm.map Prod.fst := by
  induction pm with
  | nil => simp
  | cons e rest ih =>
    rcases e with ⟨k, v⟩
    rw [List.lookup_cons]
    by_cases hk : d = k
    · subst hk
      simp
    · have hbeq : (d == k) = false := by simpa using hk
      rw [hbeq]
      simp only [List.map_cons, List.mem_cons]
      constructor
      · intro h hm
        rcases hm with hm | hm
        · exact hk hm
        · exact (ih.mp h) hm
      · intro h
        exact ih.mpr (fun hm => h (Or.inr hm))

lemma lookup_isSome_iff {pm : List (Pos × Pos)} {d : Pos} :
    (pm.lookup d).isSome = true ↔ d ∈ pm.map Prod.fst := by
  rcases h : pm.lookup d with _ | v
  · simp only [Option.isSome_none, Bool.false_eq_true, false_iff]
    exact lookup_eq_none_iff.mp h
  · simp only [Option.isSome_some, true_iff]
    by_contra hm
    rw [← lookup_eq_none_iff] at hm
    rw [h] at hm
    cases hm

lemma lookup_cons_ne {pm : List (Pos × Pos)} {k v : Pos} {d : Pos}
    (h : d ≠ k) : ((k, v) :: pm).lookup d = pm.lookup d := by
  rw [List.lookup_cons]
  have hbeq : (d == k) = false := by simpa using h
  rw [hbeq]

lemma lookup_mem {pm : List (Pos × Pos)} {d v : Pos} (h : pm.lookup d = some v) :
    (d, v) ∈ pm := by
  induction pm with
  | nil => cases h
  | cons e rest ih =>
    rcases e with ⟨k, w⟩
    rw [List.lookup_cons] at h
    by_cases hk : d = k
    · subst hk
      simp only [beq_self_eq_true] at h
      cases h
      exact List.mem_cons_self _ _
    · have hbeq : (d == k) = false := by simpa using hk
      rw [hbeq] at h
      exact List.mem_cons_of_mem _ (ih h)

lemma reconstruct_eq {pm : List (Pos × Pos)} {c : Pos} {l : List Pos}
    (h : ParentPath pm c l) :
    ∀ fuel acc, l.length < fuel → reconstruct_path pm fuel c acc = l ++ acc := by
  induction h with
  | stop hnone =>
    intro fuel acc hfuel
    cases fuel with
    | zero => omega
    | succ fuel =>
      unfold reconstruct_path
      rw [hnone]
      rfl
  | @step c' prev' l' hsome hpp ih =>
    intro fuel acc hfuel
    cases fuel with
    | zero => omega
    | succ fuel =>
      unfold reconstruct_path
      rw [hsome]
      show reconstruct_path pm fuel prev' (c' :: acc) = (l' ++ [c']) ++ acc
      rw [ih fuel _ (by simp at hfuel; omega)]
      simp

/-- Appending a cell adjacent to the last one preserves being a chain. -/
lemma chain_snoc {a b : Pos} : ∀ {l : List Pos}, List.Chain adj a l →
    (∀ x ∈ l.getLast?, adj x b) → (l = [] → adj a b) →
    List.Chain adj a (l ++ [b]) := by
  intro l
  induction l generalizing a with
  | nil =>
    intro _ _ hnil
    exact List.Chain.cons (hnil rfl) List.Chain.nil
  | cons x rest ih =>
    intro hchain hlast _
    rcases hchain with _ | ⟨hax, hrest⟩
    refine List.Chain.cons hax (ih hrest ?_ ?_)
    · intro y hy
      apply hlast
      rcases rest with _ | ⟨z, zs⟩
      · cases hy
      · rwa [List.getLast?_cons_cons]
    · intro hre
      subst hre
      have : (([x] : List Pos)).getLast? = some x := rfl
      exact hlast x this

lemma ranked_parent_mem {start : Pos} :
    ∀ {pm : List (Pos × Pos)}, ranked start pm → ∀ e ∈ pm,
      e.2 = start ∨ e.2 ∈ pm.map Prod.fst := by
  intro pm
  induction pm with
  | nil =>
    intro _ e he
    cases he
  | cons e₀ rest ih =>
    rcases e₀ with ⟨n₀, c₀⟩
    intro hr e he
    obtain ⟨hc₀, hn₀, hrest⟩ := hr
    rcases List.mem_cons.mp he with rfl | he
    · rcases hc₀ with h | h
      · exact Or.inl h
      · exact Or.inr (by simp only [List.map_cons]; exact List.mem_cons_of_mem _ h)
    · rcases ih hrest e he with h | h
      · exact Or.inl h
      · exact Or.inr (by simp only [List.map_cons]; exact List.mem_cons_of_mem _ h)

/-- Lift a reconstruction chain over an extension of the parent map by a
fresh key. -/
lemma ParentPath_lift {start n₀ c₀ : Pos} {rest : List (Pos × Pos)}
    (hn₀ : n₀ ∉ rest.map Prod.fst) (hstart : start ≠ n₀)
    (hclosed : ∀ e ∈ rest, e.2 = start ∨ e.2 ∈ rest.map Prod.fst) :
    ∀ {d : Pos} {l : List Pos}, ParentPath rest d l →
      (d = start ∨ d ∈ rest.map Prod.fst) → ParentPath ((n₀, c₀) :: rest) d l := by
  intro d l hpp
  induction hpp with
  | @stop e hnone =>
    intro hd
    refine ParentPath.stop ?_
    have hdn : e ≠ n₀ := by
      rcases hd with rfl | hd
      · exact hstart
      · exact absurd hd (lookup_eq_none_iff.mp hnone)
    rw [lookup_cons_ne hdn]
    exact hnone
  | @step c prev l' hsome hpp ih =>
    intro hd
    have hck : c ∈ rest.map Prod.fst := by
      rw [← lookup_isSome_iff, hsome]
      rfl
    have hcn : c ≠ n₀ := fun he => hn₀ (he ▸ hck)
    have hprev : prev = start ∨ prev ∈ rest.map Prod.fst := by
      have hmem := lookup_mem hsome
      exact hclosed (c, prev) hmem
    exact ParentPath.step (by rw [lookup_cons_ne hcn]; exact hsome) (ih hprev)

end Maze

namespace Maze

/-- From a well-formed parent map, every key (and the start cell) has a
reconstruction chain: a 4-adjacent path from the start cell through keys of
the map, ending at the queried cell. -/
lemma ranked_path {start : Pos} :
    ∀ (pm : List (Pos × Pos)), ranked start pm →
    (hadj : ∀ e ∈ pm, adj e.1 e.2) → (hns : start ∉ pm.map Prod.fst) →
    ∀ c, c = start ∨ c ∈ pm.map Prod.fst →
    ∃ l, ParentPath pm c l ∧ (∀ x ∈ l, x ∈ pm.map Prod.fst) ∧
      List.Chain adj start l ∧ l.length ≤ pm.length ∧
      (c = start → l = []) ∧ (c ∈ pm.map Prod.fst → l.getLast? = some c) := by
  intro pm
  induction pm with
  | nil =>
    intro _ _ _ c hc
    rcases hc with rfl | hc
    · exact ⟨[], ParentPath.stop rfl, by simp, List.Chain.nil, by simp, fun _ => rfl,
        by simp⟩
    · cases hc
  | cons e₀ rest ih =>
    rcases e₀ with ⟨n₀, c₀⟩
    intro hr hadj hns c hc
    obtain ⟨hc₀, hn₀, hrest⟩ := hr
    have hns' : start ∉ rest.map Prod.fst := by
      intro h
      exact hns (by simp only [List.map_cons]; exact List.mem_cons_of_mem _ h)
    have hsn₀ : start ≠ n₀ := by
      intro h
      exact hns (by simp [List.map_cons, h])
    have hadj' : ∀ e ∈ rest, adj e.1 e.2 :=
      fun e he => hadj e (List.mem_cons_of_mem _ he)
    have hclosed := ranked_parent_mem hrest
    rcases hc with rfl | hc
    · -- c = start: empty chain
      refine ⟨[], ParentPath.stop (lookup_eq_none_iff.mpr hns), by simp,
        List.Chain.nil, by simp, fun _ => rfl, ?_⟩
      intro hmem
      exact absurd hmem hns
    · simp only [List.map_cons, List.mem_cons] at hc
      rcases hc with rfl | hck
      · -- c is the newest key: extend the chain of c₀ by it
        obtain ⟨l₀, hpp₀, hkeys₀, hchain₀, hlen₀, hst₀, hlast₀⟩ :=
          ih hrest hadj' hns' c₀ hc₀
        have hpp₀' : ParentPath ((c, c₀) :: rest) c₀ l₀ :=
          ParentPath_lift hn₀ hsn₀ hclosed hpp₀ hc₀
        have hlook : ((c, c₀) :: rest).lookup c = some c₀ := by
          rw [List.lookup_cons]
          simp
        have hadj₀ : adj c c₀ := hadj (c, c₀) (List.mem_cons_self _ _)
        refine ⟨l₀ ++ [c], ParentPath.step hlook hpp₀', ?_, ?_, by simp; omega,
          ?_, ?_⟩
        · intro x hx
          rcases List.mem_append.mp hx with hx | hx
          · exact List.mem_cons_of_mem _ (by simpa using hkeys₀ x hx)
          · simp only [List.mem_singleton] at hx
            subst hx
            simp
        · refine chain_snoc hchain₀ ?_ ?_
          · intro x hx
            rcases hl₀ : l₀ with _ | _
            · rw [hl₀] at hx
              cases hx
            · have hc₀k : c₀ ∈ rest.map Prod.fst := by
                rcases hc₀ with rfl | h
                · exact absurd (hst₀ rfl) (by rw [hl₀]; exact List.cons_ne_nil _ _)
                · exact h
              have hlast := hlast₀ hc₀k
              rw [hlast] at hx
              cases hx
              exact adj_symm hadj₀
          · intro hl₀
            have hc₀s : c₀ = start := by
              rcases hc₀ with h | h
              · exact h
              · have := hlast₀ h
                rw [hl₀] at this
                cases this
            rw [← hc₀s]
            exact adj_symm hadj₀
        · intro hst
          exact absurd hst.symm hsn₀
        · intro _
          simp
      · -- c a key of rest: lift its chain
        obtain ⟨l, hpp, hkeys, hchain, hlen, hst, hlast⟩ :=
          ih hrest hadj' hns' c (Or.inr hck)
        refine ⟨l, ParentPath_lift hn₀ hsn₀ hclosed hpp (Or.inr hck), ?_, hchain,
          by simp; omega, hst, fun _ => hlast hck⟩
        intro x hx
        exact List.mem_cons_of_mem _ (by simpa using hkeys x hx)

end Maze

namespace Maze

/-- Entry invariant for a parent map built by either search. -/
def pmProps (N : Int) (wall : Pos → Bool) (start : Pos)
    (pm : List (Pos × Pos)) : Prop :=
  ranked start pm ∧
  ∀ e ∈ pm, adj e.1 e.2 ∧ inB N e.1 ∧ wall e.1 = false ∧ e.1 ≠ start

lemma pmProps_start_not_key {N : Int} {wall : Pos → Bool} {start : Pos}
    {pm : List (Pos × Pos)} (h : pmProps N wall start pm) :
    start ∉ pm.map Prod.fst := by
  intro hmem
  obtain ⟨e, he, heq⟩ := List.mem_map.mp hmem
  exact (h.2 e he).2.2.2 heq

lemma pushNeighbors_inv {N : Int} {wall : Pos → Bool} {start current : Pos}
    {visited : List Pos} (hstart : start ∈ visited) :
    ∀ ds stack pm,
    (∀ d ∈ ds, d ∈ ([(1, 0), (0, 1), (-1, 0), (0, -1)] : List Pos)) →
    pmProps N wall start pm →
    (∀ s ∈ stack, s = start ∨ s ∈ pm.map Prod.fst) →
    (current = start ∨ current ∈ pm.map Prod.fst) →
    pmProps N wall start (pushNeighbors N wall visited current ds stack pm).2 ∧
    (∀ s ∈ (pushNeighbors N wall visited current ds stack pm).1,
      s = start ∨ s ∈ (pushNeighbors N wall visited current ds stack pm).2.map Prod.fst) := by
  intro ds
  induction ds with
  | nil =>
    intro stack pm _ hpm hstack _
    exact ⟨hpm, hstack⟩
  | cons d ds ih =>
    intro stack pm hds hpm hstack hcur
    rcases d with ⟨dx, dy⟩
    unfold pushNeighbors
    by_cases hok : 0 ≤ current.1 + dx ∧ current.1 + dx < N ∧ 0 ≤ current.2 + dy ∧
        current.2 + dy < N ∧ wall (current.1 + dx, current.2 + dy) = false ∧
        (current.1 + dx, current.2 + dy) ∉ visited
    · rw [if_pos hok]
      have hdmem := hds (dx, dy) (List.mem_cons_self _ _)
      have hadjn : adj (current.1 + dx, current.2 + dy) current := by
        simp only [List.mem_cons, List.mem_singleton, Prod.mk.injEq,
          List.not_mem_nil, or_false] at hdmem
        unfold adj
        rcases hdmem with ⟨h1, h2⟩ | ⟨h1, h2⟩ | ⟨h1, h2⟩ | ⟨h1, h2⟩ <;>
          simp only [h1, h2] <;> omega
      have hnstart : (current.1 + dx, current.2 + dy) ≠ start :=
        fun he => hok.2.2.2.2.2 (he ▸ hstart)
      by_cases hlk : (pm.lookup (current.1 + dx, current.2 + dy)).isSome = true
      · rw [if_pos hlk]
        refine ih _ _ (fun d hd => hds d (List.mem_cons_of_mem _ hd)) hpm ?_ hcur
        intro s hs
        rcases List.mem_cons.mp hs with rfl | hs
        · exact Or.inr (lookup_isSome_iff.mp hlk)
        · exact hstack s hs
      · rw [if_neg hlk]
        have hnk : (current.1 + dx, current.2 + dy) ∉ pm.map Prod.fst := by
          rw [← lookup_isSome_iff]
          simpa using hlk
        have hpm' : pmProps N wall start
            (((current.1 + dx, current.2 + dy), current) :: pm) := by
          refine ⟨⟨hcur, hnk, hpm.1⟩, ?_⟩
          intro e he
          rcases List.mem_cons.mp he with rfl | he
          · exact ⟨hadjn, ⟨hok.1, hok.2.1, hok.2.2.1, hok.2.2.2.1⟩,
              hok.2.2.2.2.1, hnstart⟩
          · exact hpm.2 e he
        refine ih _ _ (fun d hd => hds d (List.mem_cons_of_mem _ hd)) hpm' ?_ ?_
        · intro s hs
          rcases List.mem_cons.mp hs with rfl | hs
          · exact Or.inr (by simp)
          · rcases hstack s hs with h | h
            · exact Or.inl h
            · exact Or.inr (by simp only [List.map_cons]; exact List.mem_cons_of_mem _ h)
        · rcases hcur with h | h
          · exact Or.inl h
          · exact Or.inr (by simp only [List.map_cons]; exact List.mem_cons_of_mem _ h)
    · rw [if_neg hok]
      exact ih _ _ (fun d hd => hds d (List.mem_cons_of_mem _ hd)) hpm hstack hcur

/-- Any path handed out by the DFS loop satisfies the reconstruction
contract. -/
lemma dfsLoop_found {N : Int} {wall : Pos → Bool} {start goal : Pos}
    (hne : start ≠ goal) :
    ∀ fuel stack visited pm p,
    pmProps N wall start pm →
    (∀ s ∈ stack, s = start ∨ s ∈ pm.map Prod.fst) →
    (start ∈ visited ∨ pm = []) →
    dfsLoop N wall goal fuel stack visited pm = .found p →
    pathProps N wall start goal p := by
  intro fuel
  induction fuel with
  | zero =>
    intro stack visited pm p _ _ _ h
    cases h
  | succ fuel ih =>
    intro stack visited pm p hpm hstack hsv h
    cases stack with
    | nil => cases h
    | cons current stack =>
      unfold dfsLoop at h
      by_cases hv : current ∈ visited
      · rw [if_pos hv] at h
        exact ih stack visited pm p hpm (fun s hs => hstack s (List.mem_cons_of_mem _ hs))
          hsv h
      · rw [if_neg hv] at h
        by_cases hg : current = goal
        · rw [if_pos hg] at h
          simp only [SearchResult.found.injEq] at h
          subst h
          subst hg
          have hgk : current ∈ pm.map Prod.fst := by
            rcases hstack current (List.mem_cons_self _ _) with h | h
            · exact absurd h.symm hne
            · exact h
          obtain ⟨l, hpp, hkeys, hchain, hlen, _, hlast⟩ :=
            ranked_path pm hpm.1 (fun e he => (hpm.2 e he).1)
              (pmProps_start_not_key hpm) current (Or.inr hgk)
          have hrec := reconstruct_eq hpp (pm.length + 1) [] (by omega)
          rw [List.append_nil] at hrec
          rw [hrec]
          refine ⟨?_, hlast hgk, ?_, hchain, ?_⟩
          · intro hnil
            rw [hnil] at hlast
            cases hlast hgk
          · intro hmem
            exact pmProps_start_not_key hpm (hkeys start hmem)
          · intro q hq
            obtain ⟨e, he, heq⟩ := List.mem_map.mp (hkeys q hq)
            have := hpm.2 e he
            exact ⟨heq ▸ this.2.1, heq ▸ this.2.2.1⟩
        · rw [if_neg hg] at h
          have hcur : current = start ∨ current ∈ pm.map Prod.fst :=
            hstack current (List.mem_cons_self _ _)
          have hstart' : start ∈ current :: visited := by
            rcases hsv with hsv | hsv
            · exact List.mem_cons_of_mem _ hsv
            · rcases hcur with rfl | hk
              · exact List.mem_cons_self _ _
              · rw [hsv] at hk
                cases hk
          obtain ⟨hpm', hstack'⟩ := pushNeighbors_inv hstart'
            [(1, 0), (0, 1), (-1, 0), (0, -1)] stack pm (fun d hd => hd) hpm
            (fun s hs => hstack s (List.mem_cons_of_mem _ hs)) hcur
          exact ih _ _ _ p hpm' hstack' (Or.inl hstart') h

end Maze

namespace Maze

lemma enqNeighbors_inv {N : Int} {wall : Pos → Bool} {start current : Pos}
    (hstart0 : True) :
    ∀ ds queue visited pm,
    (∀ d ∈ ds, d ∈ ([(1, 0), (0, 1), (-1, 0), (0, -1)] : List Pos)) →
    pmProps N wall start pm →
    (∀ s ∈ queue, s = start ∨ s ∈ pm.map Prod.fst) →
    (current = start ∨ current ∈ pm.map Prod.fst) →
    (∀ k ∈ pm.map Prod.fst, k ∈ visited) →
    start ∈ visited →
    pmProps N wall start (enqNeighbors N wall current ds queue visited pm).2.2 ∧
    (∀ s ∈ (enqNeighbors N wall current ds queue visited pm).1,
      s = start ∨ s ∈ (enqNeighbors N wall current ds queue visited pm).2.2.map Prod.fst) ∧
    (∀ k ∈ (enqNeighbors N wall current ds queue visited pm).2.2.map Prod.fst,
      k ∈ (enqNeighbors N wall current ds queue visited pm).2.1) ∧
    start ∈ (enqNeighbors N wall current ds queue visited pm).2.1 ∧
    (∀ v ∈ visited, v ∈ (enqNeighbors N wall current ds queue visited pm).2.1) := by
  intro ds
  induction ds with
  | nil =>
    intro queue visited pm _ hpm hq _ hkv hsv
    exact ⟨hpm, hq, hkv, hsv, fun v hv => hv⟩
  | cons d ds ih =>
    intro queue visited pm hds hpm hq hcur hkv hsv
    rcases d with ⟨dx, dy⟩
    unfold enqNeighbors
    by_cases hok : 0 ≤ current.1 + dx ∧ current.1 + dx < N ∧ 0 ≤ current.2 + dy ∧
        current.2 + dy < N ∧ wall (current.1 + dx, current.2 + dy) = false ∧
        (current.1 + dx, current.2 + dy) ∉ visited
    · rw [if_pos hok]
      have hdmem := hds (dx, dy) (List.mem_cons_self _ _)
      have hadjn : adj (current.1 + dx, current.2 + dy) current := by
        simp only [List.mem_cons, List.mem_singleton, Prod.mk.injEq,
          List.not_mem_nil, or_false] at hdmem
        unfold adj
        rcases hdmem with ⟨h1, h2⟩ | ⟨h1, h2⟩ | ⟨h1, h2⟩ | ⟨h1, h2⟩ <;>
          simp only [h1, h2] <;> omega
      have hnstart : (current.1 + dx, current.2 + dy) ≠ start :=
        fun he => hok.2.2.2.2.2 (he ▸ hsv)
      have hnk : (current.1 + dx, current.2 + dy) ∉ pm.map Prod.fst :=
        fun hk => hok.2.2.2.2.2 (hkv _ hk)
      have hpm' : pmProps N wall start
          (((current.1 + dx, current.2 + dy), current) :: pm) := by
        refine ⟨⟨hcur, hnk, hpm.1⟩, ?_⟩
        intro e he
        rcases List.mem_cons.mp he with rfl | he
        · exact ⟨hadjn, ⟨hok.1, hok.2.1, hok.2.2.1, hok.2.2.2.1⟩,
            hok.2.2.2.2.1, hnstart⟩
        · exact hpm.2 e he
      have hq' : ∀ s ∈ queue ++ [(current.1 + dx, current.2 + dy)],
          s = start ∨ s ∈ (((current.1 + dx, current.2 + dy), current) :: pm).map
            Prod.fst := by
        intro s hs
        rcases List.mem_append.mp hs with hs | hs
        · rcases hq s hs with h | h
          · exact Or.inl h
          · exact Or.inr (by simp only [List.map_cons]; exact List.mem_cons_of_mem _ h)
        · simp only [List.mem_singleton] at hs
          subst hs
          exact Or.inr (by simp)
      have hcur' : current = start ∨ current ∈ (((current.1 + dx, current.2 + dy),
          current) :: pm).map Prod.fst := by
        rcases hcur with h | h
        · exact Or.inl h
        · exact Or.inr (by simp only [List.map_cons]; exact List.mem_cons_of_mem _ h)
      have hkv' : ∀ k ∈ (((current.1 + dx, current.2 + dy), current) :: pm).map
          Prod.fst, k ∈ (current.1 + dx, current.2 + dy) :: visited := by
        intro k hk
        simp only [List.map_cons, List.mem_cons] at hk
        rcases hk with rfl | hk
        · exact List.mem_cons_self _ _
        · exact List.mem_cons_of_mem _ (hkv k hk)
      obtain ⟨h1, h2, h3, h4, h5⟩ := ih (queue ++ [(current.1 + dx, current.2 + dy)])
        ((current.1 + dx, current.2 + dy) :: visited)
        (((current.1 + dx, current.2 + dy), current) :: pm)
        (fun d hd => hds d (List.mem_cons_of_mem _ hd)) hpm' hq' hcur' hkv'
        (List.mem_cons_of_mem _ hsv)
      exact ⟨h1, h2, h3, h4, fun v hv => h5 v (List.mem_cons_of_mem _ hv)⟩
    · rw [if_neg hok]
      exact ih _ _ _ (fun d hd => hds d (List.mem_cons_of_mem _ hd)) hpm hq hcur hkv hsv

/-- Any path handed out by the BFS loop satisfies the reconstruction
contract. -/
lemma bfsLoop_found {N : Int} {wall : Pos → Bool} {start goal : Pos}
    (hne : start ≠ goal) :
    ∀ fuel queue visited pm p,
    pmProps N wall start pm →
    (∀ s ∈ queue, s = start ∨ s ∈ pm.map Prod.fst) →
    (∀ k ∈ pm.map Prod.fst, k ∈ visited) →
    start ∈ visited →
    bfsLoop N wall goal fuel queue visited pm = .found p →
    pathProps N wall start goal p := by
  intro fuel
  induction fuel with
  | zero =>
    intro queue visited pm p _ _ _ _ h
    cases h
  | succ fuel ih =>
    intro queue visited pm p hpm hq hkv hsv h
    cases queue with
    | nil => cases h
    | cons current queue =>
      unfold bfsLoop at h
      by_cases hg : current = goal
      · rw [if_pos hg] at h
        simp only [SearchResult.found.injEq] at h
        subst h
        have hgk : current ∈ pm.map Prod.fst := by
          rcases hq current (List.mem_cons_self _ _) with h | h
          · rw [← hg] at hne
            exact absurd h.symm hne
          · exact h
        obtain ⟨l, hpp, hkeys, hchain, hlen, _, hlast⟩ :=
          ranked_path pm hpm.1 (fun e he => (hpm.2 e he).1)
            (pmProps_start_not_key hpm) current (Or.inr hgk)
        have hrec := reconstruct_eq hpp (pm.length + 1) [] (by omega)
        rw [List.append_nil] at hrec
        rw [hrec]
        refine ⟨?_, hg ▸ hlast hgk, ?_, hchain, ?_⟩
        · intro hnil
          rw [hnil] at hlast
          cases hlast hgk
        · intro hmem
          exact pmProps_start_not_key hpm (hkeys start hmem)
        · intro q hq'
          obtain ⟨e, he, heq⟩ := List.mem_map.mp (hkeys q hq')
          have := hpm.2 e he
          exact ⟨heq ▸ this.2.1, heq ▸ this.2.2.1⟩
      · rw [if_neg hg] at h
        have hcur : current = start ∨ current ∈ pm.map Prod.fst :=
          hq current (List.mem_cons_self _ _)
        obtain ⟨hpm', hq', hkv', hsv', _⟩ := enqNeighbors_inv trivial
          [(1, 0), (0, 1), (-1, 0), (0, -1)] queue visited pm (fun d hd => hd) hpm
          (fun s hs => hq s (List.mem_cons_of_mem _ hs)) hcur hkv hsv
        exact ih _ _ _ p hpm' hq' hkv' hsv' h

end Maze

namespace Maze

/-- C7 (amended): whenever the start cell differs from the goal and DFS or
BFS reaches the goal, the reconstructed sequence starts with the first step
after the start cell (its head is 4-adjacent to start), ends with the goal
cell inclusive, excludes the start cell itself, and its consecutive
coordinates are 4-adjacent in-bounds non-wall cells. -/
theorem claimC7_reconstruct_contract (N : Int) (wall : Pos → Bool)
    (start goal : Pos) (fuel : Nat) (p : List Pos) (hne : start ≠ goal)
    (hfound : solve_dfs N wall start goal fuel = .found p ∨
      solve_bfs N wall start goal fuel = .found p) :
    pathProps N wall start goal p := by
  have hpm0 : pmProps N wall start [] :=
    ⟨trivial, fun e he => absurd he (List.not_mem_nil e)⟩
  rcases hfound with h | h
  · exact dfsLoop_found hne fuel [start] [] [] p hpm0
      (fun s hs => Or.inl (List.mem_singleton.mp hs)) (Or.inr rfl) h
  · exact bfsLoop_found hne fuel [start] [start] [] p hpm0
      (fun s hs => Or.inl (List.mem_singleton.mp hs))
      (fun k hk => absurd hk (List.not_mem_nil k))
      (List.mem_singleton.mpr rfl) h

/-- C7 counterexample: with the start equal to the goal (a case the claim as
stated does not exclude) DFS immediately reaches the goal and hands back the
empty sequence, which does not end with the goal cell and has no first step —
violating the stated contract. -/
theorem claimC7_counterexample :
    solve_dfs 3 (fun _ => false) (1, 1) (1, 1) 20 = .found [] ∧
    ¬ pathProps 3 (fun _ => false) (1, 1) (1, 1) [] :=
  ⟨by decide, fun h => h.1 rfl⟩

/-- C7 witness: the hypotheses of `claimC7_reconstruct_contract` hold on the
5x5 demonstration grid, where DFS from (0,0) to (4,4) actually returns the
instantiated path. -/
theorem claimC7_witness :
    ((0, 0) : Pos) ≠ (4, 4) ∧
    pathProps 5 demoWall (0, 0) (4, 4)
      [(0, 1), (0, 2), (0, 3), (1, 3), (2, 3), (2, 2), (3, 2), (4, 2), (4, 3), (4, 4)] :=
  ⟨by decide,
    claimC7_reconstruct_contract 5 demoWall (0, 0) (4, 4) 200
      [(0, 1), (0, 2), (0, 3), (1, 3), (2, 3), (2, 2), (3, 2), (4, 2), (4, 3), (4, 4)]
      (by decide) (Or.inl (by decide))⟩

end Maze

namespace Maze

lemma reachIn_zero {N : Int} {wall : Pos → Bool} {start w : Pos}
    (h : ReachIn N wall start 0 w) : w = start := by
  cases h
  rfl

lemma reachIn_succ_inv {N : Int} {wall : Pos → Bool} {start w : Pos} {n : Nat}
    (h : ReachIn N wall start (n + 1) w) :
    w = start ∨ ∃ u, ReachIn N wall start n u ∧ adj u w ∧ inB N w ∧ wall w = false := by
  cases h with
  | base => exact Or.inl rfl
  | step hp hadj hb hw => exact Or.inr ⟨_, hp, hadj, hb, hw⟩

lemma adj_iff_dir {u w : Pos} :
    adj u w ↔ ∃ d ∈ ([(1, 0), (0, 1), (-1, 0), (0, -1)] : List Pos),
      w = (u.1 + d.1, u.2 + d.2) := by
  constructor
  · intro h
    have hcases : (w.1 = u.1 + 1 ∧ w.2 = u.2) ∨ (w.1 = u.1 ∧ w.2 = u.2 + 1) ∨
        (w.1 = u.1 - 1 ∧ w.2 = u.2) ∨ (w.1 = u.1 ∧ w.2 = u.2 - 1) := by
      unfold adj at h
      omega
    rcases hcases with ⟨h1, h2⟩ | ⟨h1, h2⟩ | ⟨h1, h2⟩ | ⟨h1, h2⟩
    · exact ⟨(1, 0), by simp, Prod.ext_iff.mpr ⟨by omega, by omega⟩⟩
    · exact ⟨(0, 1), by simp, Prod.ext_iff.mpr ⟨by omega, by omega⟩⟩
    · exact ⟨(-1, 0), by simp, Prod.ext_iff.mpr ⟨by omega, by omega⟩⟩
    · exact ⟨(0, -1), by simp, Prod.ext_iff.mpr ⟨by omega, by omega⟩⟩
  · rintro ⟨d, hd, rfl⟩
    simp only [List.mem_cons, List.mem_singleton, List.not_mem_nil,
      or_false] at hd
    unfold adj
    rcases hd with rfl | rfl | rfl | rfl <;> simp <;> omega

end Maze

namespace Maze

/-- Ghost-depth preservation through the BFS enqueue loop: processing the
direction list from `current` (at BFS layer `d`) extends the queue by fresh
cells of layer `d+1`, keeps every parent entry one layer above its parent,
and keeps recorded layers lower bounds on the true distance. -/
lemma enqNeighbors_ghost {N : Int} {wall : Pos → Bool} {start current : Pos} {d : Nat} :
    ∀ ds queue visited pm (depth : Pos → Nat),
    (∀ d₀ ∈ ds, d₀ ∈ ([(1, 0), (0, 1), (-1, 0), (0, -1)] : List Pos)) →
    depth current = d →
    (∀ e ∈ pm, depth e.1 = depth e.2 + 1) →
    (∀ e ∈ pm, e.1 ∈ visited ∧ e.2 ∈ visited) →
    (∀ v ∈ visited, ∀ n, ReachIn N wall start n v → depth v ≤ n) →
    (∀ w m, ReachIn N wall start m w → m ≤ d → w ∈ visited) →
    current ∈ visited →
    ∃ (depth' : Pos → Nat) (news : List Pos),
      (enqNeighbors N wall current ds queue visited pm).1 = queue ++ news ∧
      (∀ v, v ∈ (enqNeighbors N wall current ds queue visited pm).2.1 ↔
        v ∈ news ∨ v ∈ visited) ∧
      news.Nodup ∧ (∀ v ∈ news, v ∉ visited) ∧
      (∀ v ∈ visited, depth' v = depth v) ∧
      (∀ v ∈ news, depth' v = d + 1) ∧
      (∀ e ∈ (enqNeighbors N wall current ds queue visited pm).2.2,
        depth' e.1 = depth' e.2 + 1) ∧
      (∀ e ∈ (enqNeighbors N wall current ds queue visited pm).2.2,
        e.1 ∈ (enqNeighbors N wall current ds queue visited pm).2.1 ∧
        e.2 ∈ (enqNeighbors N wall current ds queue visited pm).2.1) ∧
      (∀ v ∈ (enqNeighbors N wall current ds queue visited pm).2.1,
        ∀ n, ReachIn N wall start n v → depth' v ≤ n) ∧
      (∀ d₀ ∈ ds, inB N (current.1 + d₀.1, current.2 + d₀.2) →
        wall (current.1 + d₀.1, current.2 + d₀.2) = false →
        (current.1 + d₀.1, current.2 + d₀.2) ∈
          (enqNeighbors N wall current ds queue visited pm).2.1) := by
  intro ds
  induction ds with
  | nil =>
    intro queue visited pm depth _ _ hpmd hpmv hf _ _
    refine ⟨depth, [], by simp [enqNeighbors], by simp [enqNeighbors], by simp,
      by simp, fun v _ => rfl, by simp, ?_, ?_, ?_, by simp⟩
    · intro e he
      exact hpmd e he
    · intro e he
      exact hpmv e he
    · intro v hv n hr
      exact hf v hv n hr
  | cons d₀ ds ih =>
    intro queue visited pm depth hds hdc hpmd hpmv hf hc hcv
    rcases d₀ with ⟨dx, dy⟩
    unfold enqNeighbors
    by_cases hok : 0 ≤ current.1 + dx ∧ current.1 + dx < N ∧ 0 ≤ current.2 + dy ∧
        current.2 + dy < N ∧ wall (current.1 + dx, current.2 + dy) = false ∧
        (current.1 + dx, current.2 + dy) ∉ visited
    · rw [if_pos hok]
      set n : Pos := (current.1 + dx, current.2 + dy) with hn
      have hcn : current ≠ n := fun he => hok.2.2.2.2.2 (he ▸ hcv)
      set depth₁ : Pos → Nat := fun p => if p = n then d + 1 else depth p with hd₁
      have hd₁n : depth₁ n = d + 1 := by simp [hd₁]
      have hd₁old : ∀ v, v ≠ n → depth₁ v = depth v := by
        intro v hv
        simp [hd₁, hv]
      have hnev : ∀ v, v ∈ visited → v ≠ n := fun v hv he => hok.2.2.2.2.2 (he ▸ hv)
      obtain ⟨depth', news', hq', hviff, hnd, hnv, hagree, hnews, hpmd', hpmv', hf', hcov⟩ :=
        ih (queue ++ [n]) (n :: visited) ((n, current) :: pm) depth₁
          (fun e he => hds e (List.mem_cons_of_mem _ he))
          (by rw [hd₁old current hcn]; exact hdc)
          (by
            intro e he
            rcases List.mem_cons.mp he with rfl | he
            · rw [hd₁n, hd₁old current hcn, hdc]
            · rw [hd₁old e.1 (hnev e.1 (hpmv e he).1), hd₁old e.2 (hnev e.2 (hpmv e he).2)]
              exact hpmd e he)
          (by
            intro e he
            rcases List.mem_cons.mp he with rfl | he
            · exact ⟨List.mem_cons_self _ _, List.mem_cons_of_mem _ hcv⟩
            · exact ⟨List.mem_cons_of_mem _ (hpmv e he).1,
                List.mem_cons_of_mem _ (hpmv e he).2⟩)
          (by
            intro v hv m hr
            rcases List.mem_cons.mp hv with rfl | hv
            · rw [hd₁n]
              by_contra hlt
              exact hok.2.2.2.2.2 (hc n m hr (by omega))
            · rw [hd₁old v (hnev v hv)]
              exact hf v hv m hr)
          (fun w m hr hm => List.mem_cons_of_mem _ (hc w m hr hm))
          (List.mem_cons_of_mem _ hcv)
      refine ⟨depth', n :: news', ?_, ?_, ?_, ?_, ?_, ?_, hpmd', hpmv', hf', ?_⟩
      · rw [hq']
        simp
      · intro v
        rw [hviff v]
        constructor
        · intro h
          rcases h with h | h
          · exact Or.inl (List.mem_cons_of_mem _ h)
          · rcases List.mem_cons.mp h with rfl | h
            · exact Or.inl (List.mem_cons_self _ _)
            · exact Or.inr h
        · intro h
          rcases h with h | h
          · rcases List.mem_cons.mp h with rfl | h
            · exact Or.inr (List.mem_cons_self _ _)
            · exact Or.inl h
          · exact Or.inr (List.mem_cons_of_mem _ h)
      · refine List.nodup_cons.mpr ⟨?_, hnd⟩
        intro hmem
        exact hnv n hmem (List.mem_cons_self _ _)
      · intro v hv
        rcases List.mem_cons.mp hv with rfl | hv
        · exact hok.2.2.2.2.2
        · exact fun hmem => hnv v hv (List.mem_cons_of_mem _ hmem)
      · intro v hv
        rw [hagree v (List.mem_cons_of_mem _ hv), hd₁old v (hnev v hv)]
      · intro v hv
        rcases List.mem_cons.mp hv with rfl | hv
        · rw [hagree n (List.mem_cons_self _ _), hd₁n]
        · exact hnews v hv
      · intro e he hb hw
        rcases List.mem_cons.mp he with rfl | he
        · exact (hviff _).mpr (Or.inr (List.mem_cons_self _ _))
        · exact hcov e he hb hw
    · rw [if_neg hok]
      obtain ⟨depth', news', hq', hviff, hnd, hnv, hagree, hnews, hpmd', hpmv', hf', hcov⟩ :=
        ih queue visited pm depth (fun e he => hds e (List.mem_cons_of_mem _ he))
          hdc hpmd hpmv hf hc hcv
      refine ⟨depth', news', hq', hviff, hnd, hnv, hagree, hnews, hpmd', hpmv', hf', ?_⟩
      intro e he hb hw
      rcases List.mem_cons.mp he with rfl | he
      · have hmem : (current.1 + dx, current.2 + dy) ∈ visited := by
          by_contra hmem
          exact hok ⟨hb.1, hb.2.1, hb.2.2.1, hb.2.2.2, hw, hmem⟩
        exact (hviff _).mpr (Or.inr hmem)
      · exact hcov e he hb hw

end Maze

namespace Maze

lemma parentPath_depth {start : Pos} {pm : List (Pos × Pos)} (depth : Pos → Nat)
    (hd0 : depth start = 0)
    (hdpm : ∀ e ∈ pm, depth e.1 = depth e.2 + 1)
    (hclosed : ∀ e ∈ pm, e.2 = start ∨ e.2 ∈ pm.map Prod.fst)
    (hns : start ∉ pm.map Prod.fst) :
    ∀ {c : Pos} {l : List Pos}, ParentPath pm c l →
      (c = start ∨ c ∈ pm.map Prod.fst) → l.length = depth c := by
  intro c l hpp
  induction hpp with
  | @stop e hnone =>
    intro hd
    have he : e = start := by
      rcases hd with rfl | hd
      · rfl
      · exact absurd hd (lookup_eq_none_iff.mp hnone)
    simp [he, hd0]
  | @step c' prev l' hsome hpp ih =>
    intro _
    have hmem := lookup_mem hsome
    have hprev := hclosed _ hmem
    have hlen := ih hprev
    have hdc := hdpm _ hmem
    simp only [List.length_append, List.length_singleton, hlen]
    rw [hdc]

/-- The BFS loop: with the layered ghost invariant, it finds the goal
whenever the goal is reachable and the fuel does not run out, and any path it
hands out is no longer than any reachability bound for the goal. -/
lemma bfsLoop_main {N : Int} {wall : Pos → Bool} {start goal : Pos} :
    ∀ fuel queue visited pm,
    pmProps N wall start pm →
    (∀ s ∈ queue, s = start ∨ s ∈ pm.map Prod.fst) →
    (∀ k ∈ pm.map Prod.fst, k ∈ visited) →
    start ∈ visited →
    (∀ e ∈ pm, e.2 ∈ visited) →
    (∀ s ∈ queue, s ∈ visited) →
    queue.Nodup →
    (goal ∈ visited → goal ∈ queue) →
    (∀ u ∈ visited, u ∉ queue →
      ∀ w, adj u w → inB N w → wall w = false → w ∈ visited) →
    ∀ (depth : Pos → Nat) (d : Nat) (A B : List Pos),
    queue = A ++ B →
    (∀ v ∈ A, depth v = d) →
    (∀ v ∈ B, depth v = d + 1) →
    depth start = 0 →
    (∀ e ∈ pm, depth e.1 = depth e.2 + 1) →
    (∀ v ∈ visited, ∀ n, ReachIn N wall start n v → depth v ≤ n) →
    (∀ w m, ReachIn N wall start m w → m ≤ d → w ∈ visited) →
    (bfsLoop N wall goal fuel queue visited pm ≠ .outOfFuel →
      (∃ n, ReachIn N wall start n goal) →
      ∃ p, bfsLoop N wall goal fuel queue visited pm = .found p) ∧
    (∀ p, bfsLoop N wall goal fuel queue visited pm = .found p →
      ∀ n, ReachIn N wall start n goal → p.length ≤ n) := by
  intro fuel
  induction fuel with
  | zero =>
    intro queue visited pm _ _ _ _ _ _ _ _ _ depth d A B _ _ _ _ _ _ _
    exact ⟨fun h _ => absurd rfl h, fun p hp => by cases hp⟩
  | succ fuel ih =>
    intro queue visited pm hpm hqk hkv hsv hpv hqv hqnd hgq hclo depth d A B
      hdec hA hB hd0 hdpm hf hc
    cases queue with
    | nil =>
      constructor
      · intro _ hreach
        obtain ⟨n, hr⟩ := hreach
        have hall : ∀ m (w : Pos), ReachIn N wall start m w → w ∈ visited := by
          intro m w hw
          induction hw with
          | base => exact hsv
          | step hp hadj hb hwall ihw =>
            exact hclo _ ihw (List.not_mem_nil _) _ hadj hb hwall
        exact absurd (hgq (hall n goal hr)) (List.not_mem_nil _)
      · intro p hp
        cases hp
    | cons current rest =>
      -- normalise the layer decomposition so that `current` heads the d-layer
      obtain ⟨d', A₁, B', hrest, hdc, hA₁, hB', hc'⟩ :
          ∃ d' A₁ B', rest = A₁ ++ B' ∧ depth current = d' ∧
            (∀ v ∈ A₁, depth v = d') ∧ (∀ v ∈ B', depth v = d' + 1) ∧
            (∀ w m, ReachIn N wall start m w → m ≤ d' → w ∈ visited) := by
        cases A with
        | nil =>
          simp only [List.nil_append] at hdec
          refine ⟨d + 1, rest, [], by simp, ?_, ?_, by simp, ?_⟩
          · exact hB current (hdec ▸ List.mem_cons_self _ _)
          · intro v hv
            exact hB v (hdec ▸ List.mem_cons_of_mem _ hv)
          · intro w m hr hm
            rcases Nat.lt_or_ge m (d + 1) with hlt | hge
            · exact hc w m hr (by omega)
            · have hm' : m = d + 1 := by omega
              subst hm'
              rcases reachIn_succ_inv hr with rfl | ⟨u, hru, hadj, hb, hwall⟩
              · exact hsv
              · have huv : u ∈ visited := hc u d hru le_rfl
                have hud : depth u ≤ d := hf u huv d hru
                have hunq : u ∉ current :: rest := by
                  intro hu
                  have := hB u (hdec ▸ hu)
                  omega
                exact hclo u huv hunq w hadj hb hwall
        | cons a A₁ =>
          rw [List.cons_append] at hdec
          have hcur : current = a ∧ rest = A₁ ++ B := by
            have := List.cons.injEq current rest a (A₁ ++ B) ▸ hdec
            exact ⟨by injection hdec, by injection hdec⟩
          refine ⟨d, A₁, B, hcur.2, ?_, ?_, hB, hc⟩
          · rw [hcur.1]
            exact hA a (List.mem_cons_self _ _)
          · intro v hv
            exact hA v (List.mem_cons_of_mem _ hv)
      by_cases hg : current = goal
      · -- goal dequeued: the handed-out path has length depth(goal)
        subst hg
        constructor
        · intro _ _
          refine ⟨reconstruct_path pm (pm.length + 1) current [], ?_⟩
          unfold bfsLoop
          rw [if_pos rfl]
        · intro p hp n hr
          unfold bfsLoop at hp
          rw [if_pos rfl] at hp
          simp only [SearchResult.found.injEq] at hp
          rcases hqk current (List.mem_cons_self _ _) with hst | hk
          · -- the degenerate start-equals-goal dequeue: empty path
            have hpp : ParentPath pm current [] := by
              refine ParentPath.stop ?_
              rw [hst]
              exact lookup_eq_none_iff.mpr (pmProps_start_not_key hpm)
            have := reconstruct_eq hpp (pm.length + 1) [] (by simp)
            rw [List.append_nil] at this
            rw [← hp, this]
            simp
          · obtain ⟨l, hpp, hkeys, hchain, hlen, _, hlast⟩ :=
              ranked_path pm hpm.1 (fun e he => (hpm.2 e he).1)
                (pmProps_start_not_key hpm) current (Or.inr hk)
            have hrec := reconstruct_eq hpp (pm.length + 1) [] (by omega)
            rw [List.append_nil] at hrec
            have hldep : l.length = depth current :=
              parentPath_depth depth hd0 hdpm (ranked_parent_mem hpm.1)
                (pmProps_start_not_key hpm) hpp (Or.inr hk)
            have hdn : depth current ≤ n :=
              hf current (hqv current (List.mem_cons_self _ _)) n hr
            rw [← hp, hrec, hldep]
            exact hdn
      · -- ordinary dequeue: enqueue the neighbors and recurse
        have hcur : current = start ∨ current ∈ pm.map Prod.fst :=
          hqk current (List.mem_cons_self _ _)
        have hcv : current ∈ visited := hqv current (List.mem_cons_self _ _)
        obtain ⟨hpm', hqk', hkv', hsv', hvmono⟩ := enqNeighbors_inv trivial
          [(1, 0), (0, 1), (-1, 0), (0, -1)] rest visited pm (fun x hx => hx) hpm
          (fun s hs => hqk s (List.mem_cons_of_mem _ hs)) hcur hkv hsv
        obtain ⟨depth', news, hq', hviff, hnd, hnvnew, hagree, hnewsd, hpmd', hpmvb,
            hf', hcov⟩ := enqNeighbors_ghost (d := d')
          [(1, 0), (0, 1), (-1, 0), (0, -1)] rest visited pm depth (fun x hx => hx)
          hdc hdpm (fun e he => ⟨hkv _ (List.mem_map_of_mem _ he), hpv e he⟩) hf hc' hcv
        have hstep : bfsLoop N wall goal (fuel + 1) (current :: rest) visited pm =
            bfsLoop N wall goal fuel
              (enqNeighbors N wall current [(1, 0), (0, 1), (-1, 0), (0, -1)]
                rest visited pm).1
              (enqNeighbors N wall current [(1, 0), (0, 1), (-1, 0), (0, -1)]
                rest visited pm).2.1
              (enqNeighbors N wall current [(1, 0), (0, 1), (-1, 0), (0, -1)]
                rest visited pm).2.2 := by
          simp only [bfsLoop, if_neg hg]
        have hIH := ih
          (enqNeighbors N wall current [(1, 0), (0, 1), (-1, 0), (0, -1)]
            rest visited pm).1
          (enqNeighbors N wall current [(1, 0), (0, 1), (-1, 0), (0, -1)]
            rest visited pm).2.1
          (enqNeighbors N wall current [(1, 0), (0, 1), (-1, 0), (0, -1)]
            rest visited pm).2.2
          hpm' hqk' hkv' hsv' (fun e he => (hpmvb e he).2)
          (by
            rw [hq']
            intro s hs
            rcases List.mem_append.mp hs with hs | hs
            · exact hvmono s (hqv s (List.mem_cons_of_mem _ hs))
            · exact (hviff s).mpr (Or.inl hs))
          (by
            rw [hq']
            refine List.Nodup.append ((List.nodup_cons.mp hqnd).2) hnd ?_
            intro a ha hanews
            exact hnvnew a hanews (hqv a (List.mem_cons_of_mem _ ha)))
          (by
            intro hgv
            rw [hq']
            rcases (hviff goal).mp hgv with hgn | hgv'
            · exact List.mem_append.mpr (Or.inr hgn)
            · have := hgq hgv'
              rcases List.mem_cons.mp this with rfl | hmem
              · exact absurd rfl hg
              · exact List.mem_append.mpr (Or.inl hmem))
          (by
            intro u hu hunq w hadj hb hwall
            rcases (hviff u).mp hu with hun | huv
            · exact absurd (hq' ▸ List.mem_append.mpr (Or.inr hun)) hunq
            · by_cases huc : u = current
              · subst huc
                obtain ⟨d₀, hd₀, rfl⟩ := adj_iff_dir.mp hadj
                exact hcov d₀ hd₀ hb hwall
              · have hunq' : u ∉ current :: rest := by
                  intro hmem
                  rcases List.mem_cons.mp hmem with rfl | hmem
                  · exact huc rfl
                  · exact hunq (hq' ▸ List.mem_append.mpr (Or.inl hmem))
                exact (hviff w).mpr (Or.inr (hclo u huv hunq' w hadj hb hwall)))
          depth' d' A₁ (B' ++ news)
          (by
            rw [hq', hrest, List.append_assoc])
          (by
            intro v hv
            rw [hagree v (hqv v (List.mem_cons_of_mem _ (hrest ▸
              List.mem_append.mpr (Or.inl hv))))]
            exact hA₁ v hv)
          (by
            intro v hv
            rcases List.mem_append.mp hv with hv | hv
            · rw [hagree v (hqv v (List.mem_cons_of_mem _ (hrest ▸
                List.mem_append.mpr (Or.inr hv))))]
              exact hB' v hv
            · exact hnewsd v hv)
          (by rw [hagree start hsv]; exact hd0)
          hpmd' hf'
          (fun w m hr hm => (hviff w).mpr (Or.inr (hc' w m hr hm)))
        rw [hstep]
        exact hIH

end Maze

namespace Maze

/-- A 4-adjacent walk through open cells witnesses reachability within its
length. -/
lemma chain_reachIn {N : Int} {wall : Pos → Bool} {start : Pos} :
    ∀ (q : List Pos) (u : Pos) (k : Nat), ReachIn N wall start k u →
    List.Chain adj u q → (∀ x ∈ q, inB N x ∧ wall x = false) →
    ∀ g, q.getLast? = some g → ReachIn N wall start (k + q.length) g := by
  intro q
  induction q with
  | nil =>
    intro u k _ _ _ g hg
    cases hg
  | cons x q' ih =>
    intro u k hk hchain hopen g hg
    rcases hchain with _ | ⟨hux, hchain'⟩
    have hx : ReachIn N wall start (k + 1) x :=
      ReachIn.step hk hux (hopen x (List.mem_cons_self _ _)).1
        (hopen x (List.mem_cons_self _ _)).2
    cases q' with
    | nil =>
      have : g = x := by
        simp only [List.getLast?_singleton, Option.some.injEq] at hg
        exact hg.symm
      subst this
      simpa using hx
    | cons y q'' =>
      rw [List.getLast?_cons_cons] at hg
      have := ih x (k + 1) hx hchain'
        (fun z hz => hopen z (List.mem_cons_of_mem _ hz)) g hg
      have harith : k + 1 + (y :: q'').length = k + (x :: y :: q'').length := by
        simp
        omega
      exact harith ▸ this

/-- C6: whenever the goal is reachable through open cells and the BFS fuel
does not run out, `solve_bfs` (FIFO queue, visited marked at enqueue, parent
recorded at enqueue, followed by `reconstruct_path`) returns a path whose
length is minimal among all 4-adjacent open walks from start to goal. -/
theorem claimC6_bfs_shortest (N : Int) (wall : Pos → Bool) (start goal : Pos)
    (fuel : Nat) (hreach : ∃ n, ReachIn N wall start n goal)
    (hfuel : solve_bfs N wall start goal fuel ≠ .outOfFuel) :
    ∃ p, solve_bfs N wall start goal fuel = .found p ∧
      ∀ q, List.Chain adj start q → q.getLast? = some goal →
        (∀ x ∈ q, inB N x ∧ wall x = false) → p.length ≤ q.length := by
  have hmain := @bfsLoop_main N wall start goal fuel [start] [start] []
    ⟨trivial, fun e he => absurd he (List.not_mem_nil e)⟩
    (fun s hs => Or.inl (List.mem_singleton.mp hs))
    (fun k hk => absurd hk (List.not_mem_nil k))
    (List.mem_singleton.mpr rfl)
    (fun e he => absurd he (List.not_mem_nil e))
    (fun s hs => hs)
    (List.nodup_singleton start)
    (fun h => h)
    (by
      intro u hu hunq
      rcases List.mem_singleton.mp hu with rfl
      exact absurd (List.mem_singleton.mpr rfl) hunq)
    (fun _ => 0) 0 [start] []
    (by simp)
    (fun v _ => rfl)
    (by simp)
    rfl
    (fun e he => absurd he (List.not_mem_nil e))
    (fun v _ n _ => Nat.zero_le n)
    (by
      intro w m hr hm
      have : m = 0 := by omega
      subst this
      rw [reachIn_zero hr]
      exact List.mem_singleton.mpr rfl)
  obtain ⟨p, hp⟩ := hmain.1 hfuel hreach
  refine ⟨p, hp, ?_⟩
  intro q hchain hlast hopen
  have hr : ReachIn N wall start (0 + q.length) goal :=
    chain_reachIn q start 0 (ReachIn.base 0) hchain hopen goal hlast
  simpa using hmain.2 p hp q.length (by simpa using hr)

end Maze

namespace Maze

/-- C6 witness: on the 5x5 demonstration grid with start (0,0) and goal
(4,4), the hypotheses of `claimC6_bfs_shortest` hold: the goal is reachable
(witnessed by an explicit walk of length 8) and the fuel suffices. -/
theorem claimC6_witness :
    (∃ n, ReachIn 5 demoWall (0, 0) n (4, 4)) ∧
    solve_bfs 5 demoWall (0, 0) (4, 4) 200 ≠ .outOfFuel ∧
    ∃ p, solve_bfs 5 demoWall (0, 0) (4, 4) 200 = .found p ∧
      ∀ q, List.Chain adj (0, 0) q → q.getLast? = some (4, 4) →
        (∀ x ∈ q, inB 5 x ∧ demoWall x = false) → p.length ≤ q.length := by
  have hchain : List.Chain adj (0, 0)
      [(1, 0), (2, 0), (3, 0), (4, 0), (4, 1), (4, 2), (4, 3), (4, 4)] := by
    repeat first
      | exact List.Chain.nil
      | refine List.Chain.cons (by decide) ?_
  have hreach : ∃ n, ReachIn 5 demoWall (0, 0) n (4, 4) :=
    ⟨_, chain_reachIn _ (0, 0) 0 (ReachIn.base 0) hchain (by decide) (4, 4) (by decide)⟩
  exact ⟨hreach, by decide,
    claimC6_bfs_shortest 5 demoWall (0, 0) (4, 4) 200 hreach (by decide)⟩

end Maze

namespace Maze

lemma pos_eq {p q : Pos} (h1 : p.1 = q.1) (h2 : p.2 = q.2) : p = q :=
  Prod.ext_iff.mpr ⟨h1, h2⟩

lemma adj_irrefl (p : Pos) : ¬ adj p p := by
  unfold adj; omega

lemma carveDirs_flag {c' : Pos → CarveState → CarveState} {N x y : Int}
    (hc : ∀ p st, st.outOfFuel = true → (c' p st).outOfFuel = true) :
    ∀ ds st, st.outOfFuel = true → (carveDirs c' N x y ds st).outOfFuel = true := by
  intro ds
  induction ds with
  | nil => intro st h; exact h
  | cons d rest ih =>
    intro st h
    obtain ⟨dx, dy⟩ := d
    show (carveDirs c' N x y ((dx, dy) :: rest) st).outOfFuel = true
    rw [show carveDirs c' N x y ((dx, dy) :: rest) st =
        (if 0 ≤ x + dx ∧ x + dx < N ∧ 0 ≤ y + dy ∧ y + dy < N then
          (if (x + dx, y + dy) ∈ st.visited then carveDirs c' N x y rest st
           else carveDirs c' N x y rest (c' (x + dx, y + dy)
             { st with openCells :=
                 List.insert (x + dx / 2, y + dy / 2) st.openCells }))
         else carveDirs c' N x y rest st) from rfl]
    by_cases hb : 0 ≤ x + dx ∧ x + dx < N ∧ 0 ≤ y + dy ∧ y + dy < N
    · rw [if_pos hb]
      by_cases hv : (x + dx, y + dy) ∈ st.visited
      · rw [if_pos hv]; exact ih st h
      · rw [if_neg hv]
        exact ih _ (hc _ _ h)
    · rw [if_neg hb]; exact ih st h

lemma carve_flag (N : Int) (dirs : Pos → List Pos) :
    ∀ fuel p st, st.outOfFuel = true → (carve N dirs fuel p st).outOfFuel = true := by
  intro fuel
  induction fuel with
  | zero => intro p st _; rfl
  | succ fuel ih =>
    intro p st h
    obtain ⟨x, y⟩ := p
    show (carveDirs (carve N dirs fuel) N x y (dirs (x, y))
      { st with openCells := List.insert (x, y) st.openCells,
                visited := List.insert (x, y) st.visited }).outOfFuel = true
    exact carveDirs_flag ih _ _ h

end Maze

namespace Maze

lemma stInv_insert_cell {N : Int} {p : Pos} {st : CarveState}
    (h : carvePre N p st) :
    stInv N [] { st with openCells := List.insert p st.openCells,
                         visited := List.insert p st.visited } := by
  obtain ⟨hodd, hinB, hnv, hinv, huniq, hroot⟩ := h
  obtain ⟨hr, hv, ho, hov, hmid, pm, dp, hA1, hA2, hB, hC⟩ := hinv
  have hpo : p ∉ st.openCells := fun hc => hnv (hov p hc hodd)
  refine ⟨?_, ?_, ?_, ?_, ?_, ?_⟩
  · left
    rcases hroot with ⟨hp1, _⟩ | ⟨_, _, _, h11⟩
    · rw [← hp1]; exact List.mem_insert_self p _
    · exact List.mem_insert_of_mem h11
  · intro q hq
    rcases List.mem_insert_iff.mp hq with rfl | hq
    · exact ⟨hodd, hinB, List.mem_insert_self q _⟩
    · obtain ⟨h1, h2, h3⟩ := hv q hq
      exact ⟨h1, h2, List.mem_insert_of_mem h3⟩
  · intro q hq
    rcases List.mem_insert_iff.mp hq with rfl | hq
    · exact hinB
    · exact ho q hq
  · intro q hq hqo
    rcases List.mem_insert_iff.mp hq with rfl | hq
    · exact List.mem_insert_self q _
    · exact List.mem_insert_of_mem (hov q hq hqo)
  · intro m hm hmo
    rcases List.mem_insert_iff.mp hm with rfl | hm
    · exact absurd hodd hmo
    · obtain ⟨h1, h2, h3⟩ := hmid m hm hmo
      refine ⟨h1, ?_, ?_⟩
      · rcases h2 with h2 | h2
        · exact Or.inl (List.mem_insert_of_mem h2)
        · simp only [List.mem_singleton] at h2
          exact Or.inl (h2 ▸ List.mem_insert_self p _)
      · rcases h3 with h3 | h3
        · exact Or.inl (List.mem_insert_of_mem h3)
        · simp only [List.mem_singleton] at h3
          exact Or.inl (h3 ▸ List.mem_insert_self p _)
  · rcases hroot with ⟨hp1, hoe⟩ | ⟨m₀, hm₀o, hm₀a, h11v⟩
    · refine ⟨pm, dp, hA1, hA2, ?_, ?_⟩
      · intro q hq hq1
        have hq' : q ∈ List.insert p st.openCells := hq
        rw [hoe] at hq'
        rcases List.mem_insert_iff.mp hq' with rfl | hq'
        · exact absurd hp1 hq1
        · exact absurd hq' (List.not_mem_nil q)
      · intro q hq q' hq' hadj
        have hq1 : q ∈ List.insert p st.openCells := hq
        have hq1' : q' ∈ List.insert p st.openCells := hq'
        rw [hoe] at hq1 hq1'
        rcases List.mem_insert_iff.mp hq1 with rfl | hq1
        · rcases List.mem_insert_iff.mp hq1' with rfl | hq1'
          · exact absurd hadj (adj_irrefl _)
          · exact absurd hq1' (List.not_mem_nil q')
        · exact absurd hq1 (List.not_mem_nil q)
    · have hne1 : p ≠ (1, 1) := fun e => hnv (e ▸ h11v)
      have hm₀p : m₀ ≠ p := fun e => hpo (e ▸ hm₀o)
      refine ⟨Function.update pm p (some m₀),
              Function.update dp p (dp m₀ + 1),
              ?_, ?_, ?_, ?_⟩
      · rw [Function.update_noteq (Ne.symm hne1)]; exact hA1
      · rw [Function.update_noteq (Ne.symm hne1)]; exact hA2
      · intro q hq hq1
        rcases List.mem_insert_iff.mp hq with rfl | hqo
        · refine ⟨m₀, by rw [Function.update_same], List.mem_insert_of_mem hm₀o,
            hm₀a, ?_⟩
          rw [Function.update_same, Function.update_noteq hm₀p]
        · obtain ⟨q', hq'1, hq'2, hq'3, hq'4⟩ := hB q hqo hq1
          have hqp : q ≠ p := fun e => hpo (e ▸ hqo)
          have hq'p : q' ≠ p := fun e => hpo (e ▸ hq'2)
          exact ⟨q', by rw [Function.update_noteq hqp]; exact hq'1,
            List.mem_insert_of_mem hq'2, hq'3,
            by rw [Function.update_noteq hqp, Function.update_noteq hq'p]
               exact hq'4⟩
      · intro q hq q' hq' hadj
        rcases List.mem_insert_iff.mp hq with rfl | hqo
        · rcases List.mem_insert_iff.mp hq' with rfl | hq'o
          · exact absurd hadj (adj_irrefl _)
          · have : q' = m₀ := huniq q' hq'o m₀ hm₀o hadj hm₀a
            left; rw [Function.update_same, this]
        · rcases List.mem_insert_iff.mp hq' with rfl | hq'o
          · have : q = m₀ := huniq q hqo m₀ hm₀o (adj_symm hadj) hm₀a
            right; rw [Function.update_same, this]
          · have hqp : q ≠ p := fun e => hpo (e ▸ hqo)
            have hq'p : q' ≠ p := fun e => hpo (e ▸ hq'o)
            rcases hC q hqo q' hq'o hadj with h | h
            · left; rw [Function.update_noteq hqp]; exact h
            · right; rw [Function.update_noteq hq'p]; exact h

end Maze

namespace Maze

lemma inB_mk {N a b : Int} : inB N (a, b) ↔ 0 ≤ a ∧ a < N ∧ 0 ≤ b ∧ b < N :=
  Iff.rfl

lemma oddCell_mk {a b : Int} : oddCell (a, b) ↔ a % 2 = 1 ∧ b % 2 = 1 := Iff.rfl

lemma adj_mk {a b c d : Int} :
    adj (a, b) (c, d) ↔ (a - c).natAbs + (b - d).natAbs = 1 := Iff.rfl

lemma endA_mk (a b : Int) :
    endA (a, b) = if a % 2 = 0 then (a - 1, b) else (a, b - 1) := rfl

lemma endB_mk (a b : Int) :
    endB (a, b) = if a % 2 = 0 then (a + 1, b) else (a, b + 1) := rfl

lemma neighbor_parity {m r : Pos}
    (hpat : (m.1 % 2 = 0 ∧ m.2 % 2 = 1) ∨ (m.1 % 2 = 1 ∧ m.2 % 2 = 0))
    (ha : adj m r) :
    oddCell r ∨ (r.1 % 2 = 0 ∧ r.2 % 2 = 0) := by
  unfold adj at ha
  unfold oddCell
  rcases hpat with ⟨h1, h2⟩ | ⟨h1, h2⟩ <;> omega

lemma odd_neighbor_parity {t r : Pos} (ht : oddCell t) (ha : adj t r) :
    (r.1 % 2 = 0 ∧ r.2 % 2 = 1) ∨ (r.1 % 2 = 1 ∧ r.2 % 2 = 0) := by
  obtain ⟨h1, h2⟩ := ht
  unfold adj at ha
  omega

lemma odd_neighbor_end {m r : Pos}
    (hpat : (m.1 % 2 = 0 ∧ m.2 % 2 = 1) ∨ (m.1 % 2 = 1 ∧ m.2 % 2 = 0))
    (ha : adj m r) (hr : oddCell r) : r = endA m ∨ r = endB m := by
  obtain ⟨hr1, hr2⟩ := hr
  have hco : (r.1 = m.1 - 1 ∧ r.2 = m.2) ∨ (r.1 = m.1 + 1 ∧ r.2 = m.2) ∨
      (r.1 = m.1 ∧ r.2 = m.2 - 1) ∨ (r.1 = m.1 ∧ r.2 = m.2 + 1) := by
    unfold adj at ha
    omega
  unfold endA endB
  rcases hpat with ⟨h1, h2⟩ | ⟨h1, h2⟩
  · rw [if_pos h1, if_pos h1]
    rcases hco with ⟨hc1, hc2⟩ | ⟨hc1, hc2⟩ | ⟨hc1, hc2⟩ | ⟨hc1, hc2⟩
    · exact Or.inl (pos_eq (by omega) (by omega))
    · exact Or.inr (pos_eq (by omega) (by omega))
    · exact absurd hr1 (by omega)
    · exact absurd hr1 (by omega)
  · rw [if_neg (by omega : ¬ m.1 % 2 = 0), if_neg (by omega : ¬ m.1 % 2 = 0)]
    rcases hco with ⟨hc1, hc2⟩ | ⟨hc1, hc2⟩ | ⟨hc1, hc2⟩ | ⟨hc1, hc2⟩
    · exact absurd hr1 (by omega)
    · exact absurd hr1 (by omega)
    · exact Or.inl (pos_eq (by omega) (by omega))
    · exact Or.inr (pos_eq (by omega) (by omega))

end Maze

namespace Maze

lemma carvePre_step {N : Int} {x y dx dy : Int} {st : CarveState}
    (hinv : stInv N [] st) (hcur : (x, y) ∈ st.visited)
    (hd : (dx, dy) ∈ dirs2)
    (hb : inB N (x + dx, y + dy))
    (hnvis : (x + dx, y + dy) ∉ st.visited) :
    carvePre N (x + dx, y + dy)
      { st with openCells := List.insert (x + dx / 2, y + dy / 2) st.openCells } := by
  obtain ⟨hr, hv, ho, hov, hmid, pm, dp, hA1, hA2, hB, hC⟩ := hinv
  obtain ⟨hcurO, hcurB, hcurOp⟩ := hv _ hcur
  have hxo : x % 2 = 1 := hcurO.1
  have hyo : y % 2 = 1 := hcurO.2
  have hdxy : (dx = 2 ∧ dy = 0) ∨ (dx = 0 ∧ dy = 2) ∨ (dx = -2 ∧ dy = 0) ∨
      (dx = 0 ∧ dy = -2) := by
    simp only [dirs2, List.mem_cons, List.not_mem_nil, or_false,
      Prod.mk.injEq] at hd
    exact hd
  have h11 : (1, 1) ∈ st.visited := by
    rcases hr with h | ⟨_, h2⟩
    · exact h
    · rw [h2] at hcur
      exact absurd hcur (List.not_mem_nil _)
  have htO : oddCell (x + dx, y + dy) := by
    rw [oddCell_mk]
    rcases hdxy with h | h | h | h <;> omega
  have hmidB : inB N (x + dx / 2, y + dy / 2) := by
    rw [inB_mk]
    rw [inB_mk] at hb
    have hcb : 0 ≤ x ∧ x < N ∧ 0 ≤ y ∧ y < N := hcurB
    rcases hdxy with h | h | h | h <;> omega
  have hmidPat : ((x + dx / 2) % 2 = 0 ∧ (y + dy / 2) % 2 = 1) ∨
      ((x + dx / 2) % 2 = 1 ∧ (y + dy / 2) % 2 = 0) := by
    rcases hdxy with h | h | h | h <;> omega
  have hmidNotOdd : ¬ oddCell (x + dx / 2, y + dy / 2) := by
    rw [oddCell_mk]
    intro hcon
    rcases hdxy with h | h | h | h <;> omega
  have hadjMC : adj (x + dx / 2, y + dy / 2) (x, y) := by
    rw [adj_mk]
    rcases hdxy with h | h | h | h <;> omega
  have hadjTM : adj (x + dx, y + dy) (x + dx / 2, y + dy / 2) := by
    rw [adj_mk]
    rcases hdxy with h | h | h | h <;> omega
  have hends : (endA (x + dx / 2, y + dy / 2) = (x, y) ∧
        endB (x + dx / 2, y + dy / 2) = (x + dx, y + dy)) ∨
      (endA (x + dx / 2, y + dy / 2) = (x + dx, y + dy) ∧
        endB (x + dx / 2, y + dy / 2) = (x, y)) := by
    rw [endA_mk, endB_mk]
    rcases hdxy with h | h | h | h
    · rw [if_pos (by omega : (x + dx / 2) % 2 = 0),
        if_pos (by omega : (x + dx / 2) % 2 = 0)]
      simp only [Prod.mk.injEq]
      omega
    · rw [if_neg (by omega : ¬ (x + dx / 2) % 2 = 0),
        if_neg (by omega : ¬ (x + dx / 2) % 2 = 0)]
      simp only [Prod.mk.injEq]
      omega
    · rw [if_pos (by omega : (x + dx / 2) % 2 = 0),
        if_pos (by omega : (x + dx / 2) % 2 = 0)]
      simp only [Prod.mk.injEq]
      omega
    · rw [if_neg (by omega : ¬ (x + dx / 2) % 2 = 0),
        if_neg (by omega : ¬ (x + dx / 2) % 2 = 0)]
      simp only [Prod.mk.injEq]
      omega
  have hmidNe11 : (x + dx / 2, y + dy / 2) ≠ ((1 : Int), (1 : Int)) := by
    intro hcon
    rw [Prod.mk.injEq] at hcon
    rcases hdxy with h | h | h | h <;> omega
  have hmidPat' : ((x + dx / 2, y + dy / 2) : Pos).1 % 2 = 0 ∧
      ((x + dx / 2, y + dy / 2) : Pos).2 % 2 = 1 ∨
      ((x + dx / 2, y + dy / 2) : Pos).1 % 2 = 1 ∧
      ((x + dx / 2, y + dy / 2) : Pos).2 % 2 = 0 := hmidPat
  have hmidFresh : (x + dx / 2, y + dy / 2) ∉ st.openCells := by
    intro hcon
    obtain ⟨_, hEA, hEB⟩ := hmid _ hcon hmidNotOdd
    have hEA' : endA (x + dx / 2, y + dy / 2) ∈ st.visited := by
      rcases hEA with h | h
      · exact h
      · exact absurd h (List.not_mem_nil _)
    have hEB' : endB (x + dx / 2, y + dy / 2) ∈ st.visited := by
      rcases hEB with h | h
      · exact h
      · exact absurd h (List.not_mem_nil _)
    rcases hends with ⟨hA, hBe⟩ | ⟨hA, hBe⟩
    · rw [hBe] at hEB'
      exact hnvis hEB'
    · rw [hA] at hEA'
      exact hnvis hEA'
  have htNotOpen : (x + dx, y + dy) ∉ st.openCells :=
    fun hc => hnvis (hov _ hc htO)
  have hcurNeMid : ((x, y) : Pos) ≠ (x + dx / 2, y + dy / 2) :=
    fun h => hmidNotOdd (h ▸ hcurO)
  have hmidUniq : ∀ r ∈ st.openCells, adj (x + dx / 2, y + dy / 2) r →
      r = (x, y) := by
    intro r hrOp hadj
    rcases neighbor_parity hmidPat' hadj with hrO | ⟨hre1, hre2⟩
    · rcases odd_neighbor_end hmidPat' hadj hrO with hre | hre <;>
        rcases hends with ⟨hA, hBe⟩ | ⟨hA, hBe⟩
      · rw [hre, hA]
      · exfalso
        have : r ∈ st.visited := hov r hrOp hrO
        rw [hre, hA] at this
        exact hnvis this
      · exfalso
        have : r ∈ st.visited := hov r hrOp hrO
        rw [hre, hBe] at this
        exact hnvis this
      · rw [hre, hBe]
    · exfalso
      have hrNotOdd : ¬ oddCell r := by
        rw [show r = (r.1, r.2) from rfl, oddCell_mk]
        omega
      obtain ⟨hpat', _, _⟩ := hmid r hrOp hrNotOdd
      rcases hpat' with ⟨h1, h2⟩ | ⟨h1, h2⟩ <;> omega
  have htUniq : ∀ r ∈ st.openCells, adj (x + dx, y + dy) r → False := by
    intro r hrOp hadj
    have hrNotOdd : ¬ oddCell r := by
      have := odd_neighbor_parity htO hadj
      rw [show r = (r.1, r.2) from rfl, oddCell_mk]
      rcases this with ⟨h1, h2⟩ | ⟨h1, h2⟩ <;> omega
    obtain ⟨hpat', hEA, hEB⟩ := hmid r hrOp hrNotOdd
    rcases odd_neighbor_end hpat' (adj_symm hadj) htO with he | he
    · have hEA' : endA r ∈ st.visited := by
        rcases hEA with h | h
        · exact h
        · exact absurd h (List.not_mem_nil _)
      rw [← he] at hEA'
      exact hnvis hEA'
    · have hEB' : endB r ∈ st.visited := by
        rcases hEB with h | h
        · exact h
        · exact absurd h (List.not_mem_nil _)
      rw [← he] at hEB'
      exact hnvis hEB'
  refine ⟨htO, hb, hnvis, ⟨?_, ?_, ?_, ?_, ?_, ?_⟩, ?_, ?_⟩
  · exact Or.inl h11
  · intro q hq
    obtain ⟨h1, h2, h3⟩ := hv q hq
    exact ⟨h1, h2, List.mem_insert_of_mem h3⟩
  · intro q hq
    rcases List.mem_insert_iff.mp hq with rfl | hqo
    · exact hmidB
    · exact ho q hqo
  · intro q hq hqO
    rcases List.mem_insert_iff.mp hq with rfl | hqo
    · exact absurd hqO hmidNotOdd
    · exact hov q hqo hqO
  · intro m hm hmO
    rcases List.mem_insert_iff.mp hm with rfl | hmo
    · refine ⟨hmidPat', ?_, ?_⟩
      · rcases hends with ⟨hA, _⟩ | ⟨hA, _⟩
        · exact Or.inl (hA ▸ hcur)
        · exact Or.inr (hA ▸ List.mem_singleton_self _)
      · rcases hends with ⟨_, hBe⟩ | ⟨_, hBe⟩
        · exact Or.inr (hBe ▸ List.mem_singleton_self _)
        · exact Or.inl (hBe ▸ hcur)
    · obtain ⟨h1, h2, h3⟩ := hmid m hmo hmO
      refine ⟨h1, ?_, ?_⟩
      · rcases h2 with h | h
        · exact Or.inl h
        · exact absurd h (List.not_mem_nil _)
      · rcases h3 with h | h
        · exact Or.inl h
        · exact absurd h (List.not_mem_nil _)
  · refine ⟨Function.update pm (x + dx / 2, y + dy / 2) (some (x, y)),
      Function.update dp (x + dx / 2, y + dy / 2) (dp (x, y) + 1), ?_, ?_, ?_, ?_⟩
    · rw [Function.update_noteq (Ne.symm hmidNe11)]
      exact hA1
    · rw [Function.update_noteq (Ne.symm hmidNe11)]
      exact hA2
    · intro q hq hq1
      rcases List.mem_insert_iff.mp hq with rfl | hqo
      · refine ⟨(x, y), by rw [Function.update_same],
          List.mem_insert_of_mem hcurOp, hadjMC, ?_⟩
        rw [Function.update_same, Function.update_noteq hcurNeMid]
      · obtain ⟨q', h1, h2, h3, h4⟩ := hB q hqo hq1
        have hqNe : q ≠ (x + dx / 2, y + dy / 2) :=
          fun e => hmidFresh (e ▸ hqo)
        have hq'Ne : q' ≠ (x + dx / 2, y + dy / 2) :=
          fun e => hmidFresh (e ▸ h2)
        refine ⟨q', ?_, List.mem_insert_of_mem h2, h3, ?_⟩
        · rw [Function.update_noteq hqNe]
          exact h1
        · rw [Function.update_noteq hqNe, Function.update_noteq hq'Ne]
          exact h4
    · intro q hq q' hq' hadj
      rcases List.mem_insert_iff.mp hq with rfl | hqo
      · rcases List.mem_insert_iff.mp hq' with rfl | hq'o
        · exact absurd hadj (adj_irrefl _)
        · have : q' = (x, y) := hmidUniq q' hq'o hadj
          left
          rw [Function.update_same, this]
      · rcases List.mem_insert_iff.mp hq' with rfl | hq'o
        · have : q = (x, y) := hmidUniq q hqo (adj_symm hadj)
          right
          rw [Function.update_same, this]
        · have hqNe : q ≠ (x + dx / 2, y + dy / 2) :=
            fun e => hmidFresh (e ▸ hqo)
          have hq'Ne : q' ≠ (x + dx / 2, y + dy / 2) :=
            fun e => hmidFresh (e ▸ hq'o)
          rcases hC q hqo q' hq'o hadj with h | h
          · left
            rw [Function.update_noteq hqNe]
            exact h
          · right
            rw [Function.update_noteq hq'Ne]
            exact h
  · intro m hm m' hm' ha1 ha2
    rcases List.mem_insert_iff.mp hm with rfl | hmo
    · rcases List.mem_insert_iff.mp hm' with rfl | hm'o
      · rfl
      · exact absurd ha2 (fun hc => htUniq m' hm'o hc)
    · exact absurd ha1 (fun hc => htUniq m hmo hc)
  · exact Or.inr ⟨(x + dx / 2, y + dy / 2), List.mem_insert_self _ _, hadjTM, h11⟩

end Maze

namespace Maze

lemma carveDirs_spec {N : Int} {c' : Pos → CarveState → CarveState} {x y : Int}
    (hrec : ∀ p st, carvePre N p st → (c' p st).outOfFuel = false →
      carvePost N p st (c' p st))
    (hflag : ∀ p st, st.outOfFuel = true → (c' p st).outOfFuel = true) :
    ∀ ds st, (∀ d ∈ ds, d ∈ dirs2) → stInv N [] st → (x, y) ∈ st.visited →
    (carveDirs c' N x y ds st).outOfFuel = false →
    stInv N [] (carveDirs c' N x y ds st) ∧
    (∀ q ∈ st.openCells, q ∈ (carveDirs c' N x y ds st).openCells) ∧
    (∀ q ∈ st.visited, q ∈ (carveDirs c' N x y ds st).visited) ∧
    (∀ d ∈ ds, inB N (x + d.1, y + d.2) →
      (x + d.1, y + d.2) ∈ (carveDirs c' N x y ds st).visited) ∧
    (∀ v ∈ (carveDirs c' N x y ds st).visited, v ∉ st.visited →
      ∀ d ∈ dirs2, inB N (v.1 + d.1, v.2 + d.2) →
        (v.1 + d.1, v.2 + d.2) ∈ (carveDirs c' N x y ds st).visited) := by
  intro ds
  induction ds with
  | nil =>
    intro st _ hinv _ _
    refine ⟨hinv, fun q hq => hq, fun q hq => hq, ?_, ?_⟩
    · intro d hd
      exact absurd hd (List.not_mem_nil d)
    · intro v hv hnv
      exact absurd hv hnv
  | cons d rest ih =>
    intro st hds hinv hcur hflagF
    obtain ⟨dx, dy⟩ := d
    have hunf : carveDirs c' N x y ((dx, dy) :: rest) st =
        (if 0 ≤ x + dx ∧ x + dx < N ∧ 0 ≤ y + dy ∧ y + dy < N then
          (if (x + dx, y + dy) ∈ st.visited then carveDirs c' N x y rest st
           else carveDirs c' N x y rest (c' (x + dx, y + dy)
             { st with openCells :=
                 List.insert (x + dx / 2, y + dy / 2) st.openCells }))
         else carveDirs c' N x y rest st) := rfl
    have hdin : (dx, dy) ∈ dirs2 := hds _ (List.mem_cons_self _ _)
    have hrest : ∀ d ∈ rest, d ∈ dirs2 := fun d hd => hds d (List.mem_cons_of_mem _ hd)
    by_cases hbnd : 0 ≤ x + dx ∧ x + dx < N ∧ 0 ≤ y + dy ∧ y + dy < N
    · by_cases hvis : (x + dx, y + dy) ∈ st.visited
      · rw [hunf, if_pos hbnd, if_pos hvis] at hflagF ⊢
        obtain ⟨h1, h2, h3, h4, h5⟩ := ih st hrest hinv hcur hflagF
        refine ⟨h1, h2, h3, ?_, h5⟩
        intro e he hbe
        rcases List.mem_cons.mp he with rfl | he
        · exact h3 _ hvis
        · exact h4 e he hbe
      · rw [hunf, if_pos hbnd, if_neg hvis] at hflagF ⊢
        have hstc : (c' (x + dx, y + dy)
            { st with openCells :=
                List.insert (x + dx / 2, y + dy / 2) st.openCells }).outOfFuel
            = false := by
          rcases Bool.eq_false_or_eq_true ((c' (x + dx, y + dy)
            { st with openCells :=
                List.insert (x + dx / 2, y + dy / 2) st.openCells }).outOfFuel)
            with h | h
          · have := @carveDirs_flag c' N x y hflag rest _ h
            rw [hflagF] at this
            exact absurd this Bool.false_ne_true
          · exact h
        have hpre := carvePre_step hinv hcur hdin hbnd hvis
        obtain ⟨hi1, hi2, hi3, hi4, hi5⟩ := hrec _ _ hpre hstc
        have hcur' : (x, y) ∈ (c' (x + dx, y + dy)
            { st with openCells :=
                List.insert (x + dx / 2, y + dy / 2) st.openCells }).visited :=
          hi3 _ hcur
        obtain ⟨h1, h2, h3, h4, h5⟩ := ih _ hrest hi1 hcur' hflagF
        refine ⟨h1, ?_, ?_, ?_, ?_⟩
        · intro q hq
          exact h2 _ (hi2 _ (List.mem_insert_of_mem hq))
        · intro q hq
          exact h3 _ (hi3 _ hq)
        · intro e he hbe
          rcases List.mem_cons.mp he with rfl | he
          · exact h3 _ hi4
          · exact h4 e he hbe
        · intro v hvmem hvnew e he hbe
          by_cases hvc : v ∈ (c' (x + dx, y + dy)
              { st with openCells :=
                  List.insert (x + dx / 2, y + dy / 2) st.openCells }).visited
          · exact h3 _ (hi5 v hvc hvnew e he hbe)
          · exact h5 v hvmem hvc e he hbe
    · rw [hunf, if_neg hbnd] at hflagF ⊢
      obtain ⟨h1, h2, h3, h4, h5⟩ := ih st hrest hinv hcur hflagF
      refine ⟨h1, h2, h3, ?_, h5⟩
      intro e he hbe
      rcases List.mem_cons.mp he with rfl | he
      · exact absurd hbe hbnd
      · exact h4 e he hbe

end Maze

namespace Maze

lemma carve_spec {N : Int} {dirs : Pos → List Pos}
    (hdirs : ∀ p : Pos, (dirs p).Perm dirs2) :
    ∀ fuel p st, carvePre N p st → (carve N dirs fuel p st).outOfFuel = false →
      carvePost N p st (carve N dirs fuel p st) := by
  intro fuel
  induction fuel with
  | zero =>
    intro p st _ hflag
    exact absurd hflag (by simp [carve])
  | succ fuel ih =>
    intro p st hpre hflag
    obtain ⟨x, y⟩ := p
    have hunf : carve N dirs (fuel + 1) (x, y) st =
        carveDirs (carve N dirs fuel) N x y (dirs (x, y))
          { st with openCells := List.insert (x, y) st.openCells,
                    visited := List.insert (x, y) st.visited } := rfl
    rw [hunf] at hflag ⊢
    have hinv1 := stInv_insert_cell hpre
    have hcur1 : (x, y) ∈ ({ st with
        openCells := List.insert (x, y) st.openCells,
        visited := List.insert (x, y) st.visited } : CarveState).visited :=
      List.mem_insert_self _ _
    have hds : ∀ d ∈ dirs (x, y), d ∈ dirs2 :=
      fun d hd => ((hdirs (x, y)).mem_iff).mp hd
    obtain ⟨h1, h2, h3, h4, h5⟩ :=
      carveDirs_spec ih (carve_flag N dirs fuel) (dirs (x, y)) _ hds hinv1 hcur1 hflag
    refine ⟨h1, ?_, ?_, ?_, ?_⟩
    · intro q hq
      exact h2 _ (List.mem_insert_of_mem hq)
    · intro q hq
      exact h3 _ (List.mem_insert_of_mem hq)
    · exact h3 _ hcur1
    · intro v hvmem hvnew e he hbe
      by_cases hvp : v = (x, y)
      · subst hvp
        exact h4 e (((hdirs ((x, y) : Pos)).mem_iff).mpr he) hbe
      · have hvnew1 : v ∉ ({ st with
            openCells := List.insert (x, y) st.openCells,
            visited := List.insert (x, y) st.visited } : CarveState).visited := by
          intro hc
          rcases List.mem_insert_iff.mp hc with h | h
          · exact hvp h
          · exact hvnew h
        exact h5 v hvmem hvnew1 e he hbe

end Maze

namespace Maze

lemma visited_closed_all {N : Int} {V : List Pos}
    (h11 : ((1, 1) : Pos) ∈ V)
    (hcl : ∀ v ∈ V, ∀ d ∈ dirs2, inB N (v.1 + d.1, v.2 + d.2) →
      (v.1 + d.1, v.2 + d.2) ∈ V) :
    ∀ n : Nat, ∀ w : Pos, oddCell w → inB N w → (w.1 + w.2).toNat ≤ n → w ∈ V := by
  intro n
  induction n with
  | zero =>
    intro w ⟨ho1, ho2⟩ ⟨hb1, hb2, hb3, hb4⟩ hs
    exact absurd hs (by omega)
  | succ n ih =>
    intro w ⟨ho1, ho2⟩ ⟨hb1, hb2, hb3, hb4⟩ hs
    by_cases hw : w = ((1, 1) : Pos)
    · exact hw ▸ h11
    · have hne : ¬ (w.1 = 1 ∧ w.2 = 1) := by
        intro ⟨e1, e2⟩
        exact hw (pos_eq e1 e2)
      have hbig : 3 ≤ w.1 ∨ 3 ≤ w.2 := by omega
      rcases hbig with hbig | hbig
      · have hw' : ((w.1 - 2, w.2) : Pos) ∈ V := by
          refine ih (w.1 - 2, w.2) ⟨?_, ?_⟩ ⟨?_, ?_, ?_, ?_⟩ ?_ <;>
            · show _
              omega
        have := hcl _ hw' (2, 0) (by simp [dirs2]) (by
          rw [show (((w.1 - 2, w.2) : Pos).1 + ((2 : Int), (0 : Int)).1,
              ((w.1 - 2, w.2) : Pos).2 + ((2 : Int), (0 : Int)).2) = w from
            pos_eq (by omega) (by omega)]
          exact ⟨hb1, hb2, hb3, hb4⟩)
        rw [show (((w.1 - 2, w.2) : Pos).1 + ((2 : Int), (0 : Int)).1,
            ((w.1 - 2, w.2) : Pos).2 + ((2 : Int), (0 : Int)).2) = w from
          pos_eq (by omega) (by omega)] at this
        exact this
      · have hw' : ((w.1, w.2 - 2) : Pos) ∈ V := by
          refine ih (w.1, w.2 - 2) ⟨?_, ?_⟩ ⟨?_, ?_, ?_, ?_⟩ ?_ <;>
            · show _
              omega
        have := hcl _ hw' (0, 2) (by simp [dirs2]) (by
          rw [show (((w.1, w.2 - 2) : Pos).1 + ((0 : Int), (2 : Int)).1,
              ((w.1, w.2 - 2) : Pos).2 + ((0 : Int), (2 : Int)).2) = w from
            pos_eq (by omega) (by omega)]
          exact ⟨hb1, hb2, hb3, hb4⟩)
        rw [show (((w.1, w.2 - 2) : Pos).1 + ((0 : Int), (2 : Int)).1,
            ((w.1, w.2 - 2) : Pos).2 + ((0 : Int), (2 : Int)).2) = w from
          pos_eq (by omega) (by omega)] at this
        exact this

end Maze

namespace Maze

lemma cert_connected {cells : List Pos} {pm : Pos → Option Pos} {dp : Pos → Nat}
    (hB : ∀ p ∈ cells, p ≠ (1, 1) →
      ∃ q, pm p = some q ∧ q ∈ cells ∧ adj p q ∧ dp p = dp q + 1) :
    ∀ p ∈ cells, Relation.ReflTransGen (stepRel cells) (1, 1) p := by
  have main : ∀ n, ∀ p ∈ cells, dp p ≤ n →
      Relation.ReflTransGen (stepRel cells) (1, 1) p := by
    intro n
    induction n with
    | zero =>
      intro p hp hdp
      by_cases h1 : p = ((1, 1) : Pos)
      · exact h1 ▸ Relation.ReflTransGen.refl
      · obtain ⟨q, _, _, _, hd⟩ := hB p hp h1
        omega
    | succ n ih =>
      intro p hp hdp
      by_cases h1 : p = ((1, 1) : Pos)
      · exact h1 ▸ Relation.ReflTransGen.refl
      · obtain ⟨q, _, hq, hadj, hd⟩ := hB p hp h1
        exact Relation.ReflTransGen.tail (ih q hq (by omega)) ⟨adj_symm hadj, hp⟩
  exact fun p hp => main (dp p) p hp le_rfl

lemma list_argmax (f : Pos → Nat) :
    ∀ l : List Pos, l ≠ [] → ∃ v ∈ l, ∀ u ∈ l, f u ≤ f v := by
  intro l
  induction l with
  | nil => intro h; exact absurd rfl h
  | cons a t ih =>
    intro _
    by_cases htne : t = []
    · subst htne
      refine ⟨a, List.mem_cons_self _ _, ?_⟩
      intro u hu
      rcases List.mem_cons.mp hu with rfl | hu
      · exact le_rfl
      · exact absurd hu (List.not_mem_nil u)
    · obtain ⟨v, hv, hmax⟩ := ih htne
      by_cases hc : f a ≤ f v
      · refine ⟨v, List.mem_cons_of_mem _ hv, ?_⟩
        intro u hu
        rcases List.mem_cons.mp hu with rfl | hu
        · exact hc
        · exact hmax u hu
      · refine ⟨a, List.mem_cons_self _ _, ?_⟩
        intro u hu
        rcases List.mem_cons.mp hu with rfl | hu
        · exact le_rfl
        · exact le_trans (hmax u hu) (by omega)

end Maze

namespace Maze

lemma cycle_head {cells l : List Pos} (hc : isCycle cells l) {v : Pos}
    (hv : v ∈ l) :
    ∃ l', isCycle cells l' ∧ l'.head? = some v ∧ ∀ u, u ∈ l' ↔ u ∈ l := by
  obtain ⟨s, t, rfl⟩ := List.append_of_mem hv
  obtain ⟨hlen, hnd, hmem, hch, hwrap⟩ := hc
  have hperm : (s ++ v :: t).Perm (v :: (t ++ s)) :=
    @List.perm_append_comm _ s (v :: t)
  obtain ⟨hchs, hchvt, hlink⟩ := List.chain'_append.mp hch
  refine ⟨v :: (t ++ s), ⟨?_, hperm.nodup hnd, ?_, ?_, ?_⟩, rfl,
    fun u => (hperm.mem_iff).symm⟩
  · rw [← hperm.length_eq]
    exact hlen
  · intro p hp
    exact hmem p (hperm.mem_iff.mpr hp)
  · rw [show v :: (t ++ s) = (v :: t) ++ s from rfl]
    refine List.chain'_append.mpr ⟨hchvt, hchs, ?_⟩
    intro a ha b hb
    by_cases hs : s = []
    · subst hs
      exact absurd hb (by simp)
    · refine hwrap a ?_ b ?_
      · rw [List.getLast?_append_of_ne_nil s (List.cons_ne_nil v t)]
        exact ha
      · rw [List.head?_append_of_ne_nil s hs]
        exact hb
  · intro a ha b hb
    simp only [List.head?_cons, Option.mem_def, Option.some.injEq] at hb
    subst hb
    by_cases hs : s = []
    · subst hs
      have ha' : a ∈ (([] : List Pos) ++ v :: t).getLast? := by
        rw [List.nil_append]
        rw [show v :: (t ++ []) = v :: t from by simp] at ha
        exact ha
      exact hwrap a ha' v (by rw [List.nil_append]; rfl)
    · have ha' : a ∈ s.getLast? := by
        rw [show v :: (t ++ s) = (v :: t) ++ s from rfl,
          List.getLast?_append_of_ne_nil (v :: t) hs] at ha
        exact ha
      exact hlink a ha' v rfl

end Maze

namespace Maze

lemma getLast?_cons_exists (a : Pos) (l : List Pos) :
    ∃ g, (a :: l).getLast? = some g ∧ g ∈ a :: l := by
  induction l generalizing a with
  | nil => exact ⟨a, rfl, List.mem_singleton_self a⟩
  | cons b t ih =>
    obtain ⟨g, hg, hmem⟩ := ih b
    exact ⟨g, by rw [List.getLast?_cons_cons]; exact hg,
      List.mem_cons_of_mem _ hmem⟩

lemma cert_acyclic {cells : List Pos} {pm : Pos → Option Pos} {dp : Pos → Nat}
    (hA : pm (1, 1) = none)
    (hB : ∀ p ∈ cells, p ≠ (1, 1) →
      ∃ q, pm p = some q ∧ q ∈ cells ∧ adj p q ∧ dp p = dp q + 1)
    (hC : ∀ p ∈ cells, ∀ q ∈ cells, adj p q → pm p = some q ∨ pm q = some p) :
    ¬ ∃ l, isCycle cells l := by
  rintro ⟨l, hl⟩
  have hlne : l ≠ [] := by
    obtain ⟨hlen, _⟩ := hl
    intro h
    rw [h] at hlen
    simp at hlen
  obtain ⟨v, hv, hmax⟩ := list_argmax dp l hlne
  obtain ⟨l', hl', hhead, hmemiff⟩ := cycle_head hl hv
  obtain ⟨hlen, hnd, hmem, hch, hwrap⟩ := hl'
  have hcons : v :: l'.tail = l' := List.cons_head?_tail hhead
  obtain ⟨a, t₁, htl⟩ : ∃ a t₁, l'.tail = a :: t₁ := by
    rcases htl : l'.tail with _ | ⟨a, t₁⟩
    · rw [← hcons, htl] at hlen
      simp at hlen
    · exact ⟨a, t₁, rfl⟩
  obtain ⟨b, t₂, htt⟩ : ∃ b t₂, t₁ = b :: t₂ := by
    rcases htt : t₁ with _ | ⟨b, t₂⟩
    · rw [← hcons, htl, htt] at hlen
      simp at hlen
    · exact ⟨b, t₂, rfl⟩
  subst htt
  have hl'eq : l' = v :: a :: b :: t₂ := by rw [← hcons, htl]
  obtain ⟨g, hg, hgmem⟩ := getLast?_cons_exists b t₂
  have hglast : l'.getLast? = some g := by
    rw [hl'eq, List.getLast?_cons_cons, List.getLast?_cons_cons]
    exact hg
  have hndc : l'.Nodup := hnd
  rw [hl'eq] at hndc
  have hva : v ≠ a := by
    have := (List.nodup_cons.mp hndc).1
    intro e
    exact this (e ▸ List.mem_cons_self a _)
  have hvg : v ≠ g := by
    have hnin := (List.nodup_cons.mp hndc).1
    intro e
    exact hnin (e ▸ List.mem_cons_of_mem a hgmem)
  have hag : a ≠ g := by
    have hnd2 := (List.nodup_cons.mp hndc).2
    have := (List.nodup_cons.mp hnd2).1
    intro e
    exact this (e ▸ hgmem)
  have hadjva : adj v a := by
    have := hch
    rw [hl'eq] at this
    exact (List.chain'_cons.mp this).1
  have hadjgv : adj g v := hwrap g hglast v hhead
  have hamem : a ∈ l' := by
    rw [hl'eq]
    exact List.mem_cons_of_mem _ (List.mem_cons_self _ _)
  have hgmem' : g ∈ l' := by
    rw [hl'eq]
    exact List.mem_cons_of_mem _ (List.mem_cons_of_mem _ hgmem)
  have hvmem' : v ∈ l' := by
    rw [hl'eq]
    exact List.mem_cons_self _ _
  have hvc : v ∈ cells := hmem v hvmem'
  have hac : a ∈ cells := hmem a hamem
  have hgc : g ∈ cells := hmem g hgmem'
  have hnotparent : ∀ w, w ∈ l' → pm w ≠ some v := by
    intro w hw hpw
    have hw1 : w ≠ (1, 1) := by
      intro e
      rw [e, hA] at hpw
      exact Option.noConfusion hpw
    obtain ⟨q, hq1, _, _, hd⟩ := hB w (hmem w hw) hw1
    rw [hpw] at hq1
    have hqv : q = v := (Option.some.inj hq1).symm
    rw [hqv] at hd
    have := hmax w ((hmemiff w).mp hw)
    have := hmax v ((hmemiff v).mp hvmem')
    omega
  have hpva : pm v = some a := by
    rcases hC v hvc a hac hadjva with h | h
    · exact h
    · exact absurd h (hnotparent a hamem)
  have hpvg : pm v = some g := by
    rcases hC v hvc g hgc (adj_symm hadjgv) with h | h
    · exact h
    · exact absurd h (hnotparent g hgmem')
  rw [hpva] at hpvg
  exact hag (Option.some.inj hpvg)

end Maze

namespace Maze

/-- C5: after `generate_maze` on an odd-sized grid (modelling the shuffled
direction lists by an oracle that permutes the four step-2 directions, and
assuming the explicit recursion fuel of the embedding does not run out, as the
unbounded Python recursion never does), the set of non-wall cells contains the
start cell (1,1) and the end cell (N-2, N-2), every odd cell is opened, the
open cells are all connected to the start under 4-neighbor adjacency, and the
open region has no cycle: a perfect maze. -/
theorem claimC5_perfect_maze (N : Int) (dirs : Pos → List Pos) (fuel : Nat)
    (hN2 : N % 2 = 1) (hN5 : 5 ≤ N)
    (hdirs : ∀ p : Pos, (dirs p).Perm dirs2)
    (hfuel : (generate_maze N dirs fuel).outOfFuel = false) :
    (1, 1) ∈ (generate_maze N dirs fuel).openCells ∧
    (N - 2, N - 2) ∈ (generate_maze N dirs fuel).openCells ∧
    (∀ w : Pos, oddCell w → inB N w → w ∈ (generate_maze N dirs fuel).openCells) ∧
    (∀ p ∈ (generate_maze N dirs fuel).openCells,
      Relation.ReflTransGen (stepRel (generate_maze N dirs fuel).openCells) (1, 1) p) ∧
    ¬ ∃ l, isCycle (generate_maze N dirs fuel).openCells l := by
  have hpre : carvePre N (1, 1) ⟨[], [], false⟩ := by
    refine ⟨by decide, inB_mk.mpr ⟨by omega, by omega, by omega, by omega⟩,
      List.not_mem_nil _, ⟨Or.inr ⟨rfl, rfl⟩, ?_, ?_, ?_, ?_, ?_⟩, ?_,
      Or.inl ⟨rfl, rfl⟩⟩
    · intro p hp
      exact absurd hp (List.not_mem_nil p)
    · intro p hp
      exact absurd hp (List.not_mem_nil p)
    · intro p hp _
      exact absurd hp (List.not_mem_nil p)
    · intro m hm _
      exact absurd hm (List.not_mem_nil m)
    · refine ⟨fun _ => none, fun _ => 0, rfl, rfl, ?_, ?_⟩
      · intro p hp _
        exact absurd hp (List.not_mem_nil p)
      · intro p hp _ _ _
        exact absurd hp (List.not_mem_nil p)
    · intro m hm _ _ _
      exact absurd hm (List.not_mem_nil m)
  have hflag' : (carve N dirs fuel (1, 1) ⟨[], [], false⟩).outOfFuel = false :=
    hfuel
  obtain ⟨hinv, hopmono, hvmono, h11v, hclosure⟩ :=
    carve_spec hdirs fuel (1, 1) ⟨[], [], false⟩ hpre hflag'
  have hcl : ∀ v ∈ (carve N dirs fuel (1, 1) ⟨[], [], false⟩).visited,
      ∀ d ∈ dirs2, inB N (v.1 + d.1, v.2 + d.2) →
        (v.1 + d.1, v.2 + d.2) ∈
          (carve N dirs fuel (1, 1) ⟨[], [], false⟩).visited :=
    fun v hvm => hclosure v hvm (List.not_mem_nil v)
  have hall : ∀ w : Pos, oddCell w → inB N w →
      w ∈ (carve N dirs fuel (1, 1) ⟨[], [], false⟩).visited :=
    fun w hwo hwb =>
      visited_closed_all h11v hcl (w.1 + w.2).toNat w hwo hwb le_rfl
  obtain ⟨hr, hv, ho, hov, hmid, pm, dp, hA1, hA2, hB, hC⟩ := hinv
  have h11o : ((1, 1) : Pos) ∈
      (carve N dirs fuel (1, 1) ⟨[], [], false⟩).openCells :=
    (hv _ h11v).2.2
  have hNNo : ((N - 2, N - 2) : Pos) ∈
      (carve N dirs fuel (1, 1) ⟨[], [], false⟩).openCells :=
    (hv _ (hall (N - 2, N - 2) (oddCell_mk.mpr ⟨by omega, by omega⟩)
      (inB_mk.mpr ⟨by omega, by omega, by omega, by omega⟩))).2.2
  have hO : (generate_maze N dirs fuel).openCells =
      (carve N dirs fuel (1, 1) ⟨[], [], false⟩).openCells := by
    show List.insert (N - 2, N - 2) (List.insert (1, 1)
      (carve N dirs fuel (1, 1) ⟨[], [], false⟩).openCells) = _
    rw [List.insert_of_mem h11o, List.insert_of_mem hNNo]
  refine ⟨?_, ?_, ?_, ?_, ?_⟩
  · rw [hO]
    exact h11o
  · rw [hO]
    exact hNNo
  · intro w hwo hwb
    rw [hO]
    exact (hv _ (hall w hwo hwb)).2.2
  · rw [hO]
    exact cert_connected hB
  · rw [hO]
    exact cert_acyclic hA1 hB hC

/-- C5 witness: on the 5x5 grid with the identity direction oracle and fuel
30, the hypotheses of `claimC5_perfect_maze` hold concretely and so does its
conclusion. -/
theorem claimC5_witness :
    ((5 : Int) % 2 = 1 ∧ (5 : Int) ≤ 5 ∧ (∀ p : Pos, (dirs0 p).Perm dirs2) ∧
      (generate_maze 5 dirs0 30).outOfFuel = false) ∧
    ((1, 1) ∈ (generate_maze 5 dirs0 30).openCells ∧
     ((5 : Int) - 2, (5 : Int) - 2) ∈ (generate_maze 5 dirs0 30).openCells ∧
     (∀ w : Pos, oddCell w → inB 5 w → w ∈ (generate_maze 5 dirs0 30).openCells) ∧
     (∀ p ∈ (generate_maze 5 dirs0 30).openCells,
       Relation.ReflTransGen (stepRel (generate_maze 5 dirs0 30).openCells)
         (1, 1) p) ∧
     ¬ ∃ l, isCycle (generate_maze 5 dirs0 30).openCells l) :=
  ⟨⟨by decide, by decide, fun p => List.Perm.refl _, by decide⟩,
   claimC5_perfect_maze 5 dirs0 30 (by decide) (by decide)
     (fun p => List.Perm.refl _) (by decide)⟩

end Maze
